import Mathlib

/-!
# Shallow embedding of `src/linsys/indirect/private.c`

The source file implements the indirect (iterative) linear-system core of a
first-order conic solver: a preconditioned conjugate-gradient (PCG) method for
the regularized normal equations `(RHO_X * I + AᵀA) x = b`, where `A` is a
sparse matrix in column-compressed (CSC) storage.  The embedding below models

* `pfloat` (C `double`) by the exact rationals `ℚ`; the two operations that
  leave `ℚ` — the square root inside `calcNorm` and the real power inside the
  tolerance schedule — are modelled over `ℝ` exactly where they occur;
* `idxint` by `ℕ` (every index handled by this file is non-negative);
* a C array by a total function from `ℕ`, reads and writes being performed
  only at indices below an explicit length, exactly as in the source loops;
* the process-wide mutable statistics (`totCgIts`, `totalSolveTime`) by an
  explicit state record threaded through the statistics-touching operations.
-/

namespace MyScs

/-- A C `pfloat` array modelled as a total function; code only touches
indices below an explicit length. -/
abbrev Vec := ℕ → ℚ

/-- A C `idxint` array. -/
abbrev IVec := ℕ → ℕ

/-- Modelled from the spec: `addScaledArray(a, b, n, sc)` from the repository
file `linAlg.c` (declared in `linAlg.h`, not under `src/`) — performs
`a[i] += sc * b[i]` for `i < n` (the spec steps `x += α·p`, `r −= α·Ap`). -/
def addScaledArray (a b : Vec) (n : ℕ) (sc : ℚ) : Vec :=
  fun i => if i < n then a i + sc * b i else a i

/-- Modelled from the spec: `scaleArray(a, b, n)` from the repository file
`linAlg.c` (not under `src/`) — performs `a[i] *= b` for `i < n`. -/
def scaleArray (a : Vec) (b : ℚ) (n : ℕ) : Vec :=
  fun i => if i < n then b * a i else a i

/-- Modelled from the spec: `innerProd(x, y, n)` from the repository file
`linAlg.c` (not under `src/`) — the inner product `⟨x, y⟩` over the first
`n` entries. -/
def innerProd (x y : Vec) (n : ℕ) : ℚ := ∑ i ∈ Finset.range n, x i * y i

/-- Modelled from the spec: `calcNormSq(v, n)` from the repository file
`linAlg.c` (not under `src/`) — the "sum of squares" of the first `n`
entries. -/
def calcNormSq (v : Vec) (n : ℕ) : ℚ := innerProd v v n

/-- Modelled from the spec: `calcNorm(v, n)` from the repository file
`linAlg.c` (not under `src/`) — the Euclidean norm `‖v‖` of the first `n`
entries. -/
noncomputable def calcNorm (v : Vec) (n : ℕ) : ℝ :=
  Real.sqrt ((calcNormSq v n : ℚ) : ℝ)

/-- `memset(a, 0, n * sizeof(pfloat))`: zero the first `n` entries. -/
def memset0 (a : Vec) (n : ℕ) : Vec := fun i => if i < n then 0 else a i

/-- `memcpy(dst, src, n * sizeof(pfloat))`: copy the first `n` entries. -/
def memcpy (dst src : Vec) (n : ℕ) : Vec := fun i => if i < n then src i else dst i

/-- The CSC matrix record `AMatrix` (fields `x`, `i`, `p` as in the source
header): `p` is the column-pointer array (`n+1` used entries), `i` the row
index of each stored nonzero, `x` its value. -/
structure AMatrix where
  p : IVec
  i : IVec
  x : Vec

/-- The slice of the problem record `Data` used by this translation unit:
dimensions `m` (rows) and `n` (columns), the matrix `A`, and the
regularization weight `RHO_X`.  (`CG_RATE`, a `double` exponent, is passed
separately to the tolerance schedule, which is the only place it is read.) -/
structure Data where
  m : ℕ
  n : ℕ
  A : AMatrix
  RHO_X : ℚ

/-- Well-formedness of the CSC input, as assumed by every loop of the source
(and stated by the spec data model): column pointers start at `0` and are
non-decreasing, and every stored row index is in range `[0, m)`. -/
def AValid (d : Data) : Prop :=
  d.A.p 0 = 0 ∧ (∀ j < d.n, d.A.p j ≤ d.A.p (j + 1)) ∧
    (∀ q < d.A.p d.n, d.A.i q < d.m)

/-- The workspace record `Priv`: CG scratch vectors `p`, `r`, `Ap`, `tmp`,
preconditioning scratch `z` and diagonal `M`, and the cached transpose
arrays `Ati`, `Atp`, `Atx`. -/
structure Priv where
  p : Vec
  r : Vec
  Ap : Vec
  tmp : Vec
  z : Vec
  M : Vec
  Ati : IVec
  Atp : IVec
  Atx : Vec

/-! ## Transpose construction (`transpose`, lines 79–119) -/

/-- The row-count pass of `transpose` (lines 97–99): `z` is `calloc`-ed to
zero and the loop performs `z[Ai[q]]++` for every stored entry `q`, so the
final content of `z[i]` is the number of stored entries with row index `i`. -/
def rowCounts (d : Data) : IVec :=
  fun i => ((Finset.range (d.A.p d.n)).filter (fun q => d.A.i q = i)).card

/-- Modelled from the spec: `cs_cumsum(Cp, z, m)` from the repository
`common.c` (not under `src/`) — converts the counts `c` into exclusive
running sums ("convert counts to an exclusive prefix sum"), writing
`Cp[j] = c[0] + ... + c[j-1]` for `j ≤ m`, and copies the same running sums
back into the count array, which the scatter then uses as its per-row write
cursor ("a mutable copy of the prefix-sum array as a per-row write
cursor"). -/
def cs_cumsum (c : IVec) (m : ℕ) : IVec :=
  fun j => ∑ k ∈ Finset.range (min j m), c k

/-- The mutable state of the scatter pass: the write cursor `z` and the
output index/value arrays `Ci`/`Cx`. -/
structure TState where
  z : IVec
  Ci : IVec
  Cx : Vec

/-- One step of the scatter loop body (lines 109–110): for the stored entry
`q0` of column `j`, fetch-and-increment the cursor of its row, and write the
originating column `j` and the value at the claimed slot. -/
def scatterEntry (Ai : IVec) (Ax : Vec) (j : ℕ) (st : TState) (q0 : ℕ) : TState :=
  let q := st.z (Ai q0)
  { z := Function.update st.z (Ai q0) (q + 1),
    Ci := Function.update st.Ci q j,
    Cx := Function.update st.Cx q (Ax q0) }

/-- The inner scatter loop (lines 106–111): process the stored entries
`Ap[j] ≤ q0 < Ap[j+1]` of column `j` in order. -/
def scatterCol (d : Data) (st : TState) (j : ℕ) : TState :=
  (List.range' (d.A.p j) (d.A.p (j + 1) - d.A.p j)).foldl
    (scatterEntry d.A.i d.A.x j) st

/-- The outer scatter loop (line 105): columns `j = 0, …, n−1` in order. -/
def transposeScatter (d : Data) (st : TState) : TState :=
  (List.range d.n).foldl (scatterCol d) st

/-- `transpose(d, p)` (lines 79–119): build the CSC arrays of `Aᵀ` into the
workspace fields `Atp`/`Ati`/`Atx`.  The cursor array starts as the copy of
the running sums produced by `cs_cumsum`. -/
def transpose (d : Data) (pr : Priv) : Priv :=
  let Cp := cs_cumsum (rowCounts d) d.m
  let st := transposeScatter d ⟨Cp, pr.Ati, pr.Atx⟩
  { pr with Atp := Cp, Ati := st.Ci, Atx := st.Cx }

/-! ## Preconditioner (`getPreconditioner`, lines 33–51) -/

/-- `getPreconditioner(d, p)` (lines 42–45): for each column `i`,
`M[i] = 1 / (RHO_X + calcNormSq(&A.x[A.p[i]], A.p[i+1] − A.p[i]))`. -/
def getPreconditioner (d : Data) (pr : Priv) : Priv :=
  { pr with
    M := fun i =>
      if i < d.n then
        1 / (d.RHO_X + calcNormSq (fun k => d.A.x (d.A.p i + k)) (d.A.p (i + 1) - d.A.p i))
      else pr.M i }

/-! ## Sparse matrix-vector products (lines 235–263) -/

/-- `_accumByAtrans(n, Ax, Ai, Ap, x, y)` (lines 235–255): for every
column `j < n` of the CSC data, `y[j] += Σ_{Ap[j] ≤ q < Ap[j+1]} Ax[q] * x[Ai[q]]`
(the loop accumulation written as the sum it computes). -/
def _accumByAtrans (n : ℕ) (Ax : Vec) (Ai : IVec) (Ap : IVec) (x y : Vec) : Vec :=
  fun j =>
    if j < n then y j + ∑ q ∈ Finset.Ico (Ap j) (Ap (j + 1)), Ax q * x (Ai q)
    else y j

/-- `accumByAtrans(d, p, x, y)` (lines 257–260): `y += Aᵀ x` via the CSC
data of `A` itself. -/
def accumByAtrans (d : Data) (_pr : Priv) (x y : Vec) : Vec :=
  _accumByAtrans d.n d.A.x d.A.i d.A.p x y

/-- `accumByA(d, p, x, y)` (lines 261–263): `y += A x` via the cached CSC
data of `Aᵀ`. -/
def accumByA (d : Data) (pr : Priv) (x y : Vec) : Vec :=
  _accumByAtrans d.m pr.Atx pr.Ati pr.Atp x y

/-- `matVec(d, p, x, y)` (lines 226–233): `y = (RHO_X * I + AᵀA) x`, by
zeroing the `m`-length scratch, accumulating `A·x` into it, zeroing the
output, accumulating `Aᵀ·scratch` into it, then adding `RHO_X · x`. -/
def matVec (d : Data) (pr : Priv) (x y : Vec) : Vec :=
  let tmp := memset0 pr.tmp d.m
  let tmp := accumByA d pr x tmp
  let y := memset0 y d.n
  let y := accumByAtrans d pr tmp y
  addScaledArray y x d.n d.RHO_X

/-! ## PCG (`applyPreConditioner` and `pcg`, lines 173–223) -/

/-- `applyPreConditioner(M, z, r, n, &ipzr)` (lines 173–180): write
`z[i] = r[i] * M[i]` for `i < n` and return the pair of the new `z` and the
accumulated `ipzr = Σ_{i<n} z[i] * r[i]`. -/
def applyPreConditioner (M z r : Vec) (n : ℕ) : Vec × ℚ :=
  let zNew : Vec := fun i => if i < n then r i * M i else z i
  (zNew, ∑ i ∈ Finset.range n, zNew i * r i)

/-- The `for (i = 0; i < max_its; ++i)` loop of `pcg` (lines 205–222),
with `fuel` the remaining iteration budget.  The returned count is the
number of loop iterations executed; on early exit the last level returns
`1` and each enclosing level adds `1`, giving the source value `i + 1`; on
fuel exhaustion the base case returns `0` and the total is `max_its`,
matching `return i` after the loop.  The source convergence test is
`calcNorm(r, n) < tol`, i.e. `√(calcNormSq r n) < tol`; since `pcg` is only
invoked with `tol ≥ CG_BEST_TOL > 0`, this is equivalent to the exact
rational test `calcNormSq r n < tol ^ 2` used here (see the lemma
`sqrt_lt_pos_iff_sq` below). -/
def pcgLoop (d : Data) (pr : Priv) (tol : ℚ) (fuel : ℕ)
    (x r p z : Vec) (ipzr : ℚ) : ℕ × Vec :=
  match fuel with
  | 0 => (0, x)
  | Nat.succ fuel =>
    let Ap := matVec d pr p pr.Ap
    let alpha := ipzr / innerProd p Ap d.n
    let xNew := addScaledArray x p d.n alpha
    let rNew := addScaledArray r Ap d.n (-alpha)
    if calcNormSq rNew d.n < tol ^ 2 then (1, xNew)
    else
      let pz := applyPreConditioner pr.M z rNew d.n
      let pNew := addScaledArray (scaleArray p (pz.2 / ipzr) d.n) pz.1 d.n 1
      let rest := pcgLoop d pr tol fuel xNew rNew pNew pz.1 pz.2
      (rest.1 + 1, rest.2)

/-- `pcg(d, pr, s, b, max_its, tol)` (lines 182–223): solve
`(RHO_X * I + AᵀA) x = b`, warm started at `s` when given, writing the
iterate into the buffer that held `b`; returns the iteration count and that
buffer. -/
def pcg (d : Data) (pr : Priv) (s : Option Vec) (b : Vec) (max_its : ℕ)
    (tol : ℚ) : ℕ × Vec :=
  let xr : Vec × Vec :=
    match s with
    | none => (memset0 b d.n, memcpy pr.r b d.n)
    | some sv =>
      let r := matVec d pr sv pr.r
      let r := addScaledArray r b d.n (-1)
      let r := scaleArray r (-1) d.n
      (memcpy b sv d.n, r)
  let pz := applyPreConditioner pr.M pr.z xr.2 d.n
  let p := memcpy pr.p pz.1 d.n
  pcgLoop d pr tol max_its xr.1 xr.2 p pz.1 pz.2

/-! ## Solve orchestration: tolerance schedule and statistics
(`solveLinSys`, lines 145–171, and `getLinSysSummary`, lines 23–30) -/

/-- The floor tolerance `CG_BEST_TOL` (line 5). -/
def CG_BEST_TOL : ℚ := 1 / 10000000

/-- The CG tolerance computed by `solveLinSys` (lines 147 and 153):
`cgTol = calcNorm(b, n) * (iter < 0 ? CG_BEST_TOL : 1 / POWF(iter + 1, CG_RATE))`
followed by `cgTol = MAX(cgTol, CG_BEST_TOL)`; this value is passed to
`pcg` at line 159.  `POWF` is the C `pow` on doubles, modelled by the real
power `x ^ cgRate`. -/
noncomputable def solveLinSysCgTol (d : Data) (cgRate : ℝ) (b : Vec) (iter : ℤ) : ℝ :=
  max (calcNorm b d.n *
        (if iter < 0 then (CG_BEST_TOL : ℝ) else 1 / ((iter : ℝ) + 1) ^ cgRate))
      (CG_BEST_TOL : ℝ)

/-- The process-wide statistics of the translation unit: the file-scope
static variables `totCgIts` and `totalSolveTime` (lines 13–15).  They are
not fields of `Priv`: every solver instance reads and writes this same
state. -/
structure LinSysStats where
  totCgIts : ℕ
  totalSolveTime : ℚ
  deriving DecidableEq

/-- The effect of `initPriv` on the shared statistics (lines 70–71):
`totalSolveTime = 0; totCgIts = 0;`, executed unconditionally, whatever the
state left behind by any other solver instance. -/
def initPrivStats (_g : LinSysStats) : LinSysStats :=
  { totCgIts := 0, totalSolveTime := 0 }

/-- The effect of one `solveLinSys` call on the shared statistics
(lines 154, 166–170): the CG iteration count of the inner `pcg` call is
added when `iter >= 0`, and the elapsed wall time is always added. -/
def solveLinSysStats (g : LinSysStats) (cgIts : ℕ) (iter : ℤ) (elapsed : ℚ) :
    LinSysStats :=
  { totCgIts := if 0 ≤ iter then g.totCgIts + cgIts else g.totCgIts,
    totalSolveTime := g.totalSolveTime + elapsed }

/-- `getLinSysSummary(p, info)` (lines 23–30): report the averages
`totCgIts / (info.iter + 1)` and `totalSolveTime / (info.iter + 1) / 1e3`,
then reset both shared counters to zero. -/
def getLinSysSummary (g : LinSysStats) (iter : ℕ) : (ℚ × ℚ) × LinSysStats :=
  (((g.totCgIts : ℚ) / (iter + 1), g.totalSolveTime / (iter + 1) / 1000),
    { totCgIts := 0, totalSolveTime := 0 })

/-! ## Allocation model for `initPriv` (lines 53–77)

`initPriv` performs ten heap allocations in source order; the allocator is
modelled by an oracle giving the outcome of the `k`-th call:
`0 ↦ scs_calloc(1, sizeof(Priv))` (line 55), `1..4 ↦ p, r, Ap, tmp`
(lines 56–59), `5 ↦ z`, `6 ↦ M` (lines 62–63), `7..9 ↦ Ati, Atp, Atx`
(lines 65–67).  The `Priv` pointer itself is dereferenced without a check
at line 56, and `transpose` / `getPreconditioner` (lines 68–69) store
through `Atp`/`Ati`/`Atx`/`M` before any check runs, so a failure of any of
those is a NULL-pointer store (`crash`); the explicit check at line 72
covers `p, r, Ap, tmp, Ati, Atp, Atx` — and nothing else — and frees
everything via `freePriv` before returning NULL (`fail`). -/

/-- Which of the nine `Priv` buffers were actually allocated. -/
structure PrivAlloc where
  p : Bool
  r : Bool
  Ap : Bool
  tmp : Bool
  z : Bool
  M : Bool
  Ati : Bool
  Atp : Bool
  Atx : Bool
  deriving DecidableEq

/-- Outcome of `initPriv` under an allocation oracle: a NULL-pointer store
(`crash`), the checked failure path of lines 72–75 (`fail`, all partial
buffers released by `freePriv`), or a returned handle together with the
allocation state of each of its buffers. -/
inductive InitResult where
  | crash : InitResult
  | fail : InitResult
  | ok : PrivAlloc → InitResult
  deriving DecidableEq

/-- The allocation/check/return logic of `initPriv` (lines 53–77) under an
allocation oracle `a` (with the problem dimensions and nonzero count taken
positive, per the spec data model, so that lines 68–69 really do store
through `Atp`, `Ati`, `Atx` and `M`). -/
def initPrivAlloc (a : ℕ → Bool) : InitResult :=
  if !a 0 then InitResult.crash
  else
    let h : PrivAlloc :=
      { p := a 1, r := a 2, Ap := a 3, tmp := a 4, z := a 5, M := a 6,
        Ati := a 7, Atp := a 8, Atx := a 9 }
    if !h.Ati || !h.Atp || !h.Atx || !h.M then InitResult.crash
    else if !h.p || !h.r || !h.Ap || !h.tmp || !h.Ati || !h.Atp || !h.Atx then
      InitResult.fail
    else InitResult.ok h

/-! ## Concrete instances used by counterexamples and witnesses -/

/-- The 2×2 identity matrix of the spec scenario: `m = n = 2`,
`colPtr = [0, 1, 2]`, `rowIdx = [0, 1]`, `values = [1, 1]`, with `ρ = 1`. -/
def id2Data : Data :=
  { m := 2, n := 2,
    A := { p := fun j => min j 2, i := fun q => q, x := fun _ => 1 },
    RHO_X := 1 }

/-- A workspace whose scratch contents are arbitrary (all zero). -/
def junkPriv : Priv :=
  { p := fun _ => 0, r := fun _ => 0, Ap := fun _ => 0, tmp := fun _ => 0,
    z := fun _ => 0, M := fun _ => 0, Ati := fun _ => 0, Atp := fun _ => 0,
    Atx := fun _ => 0 }

/-! ## Derived notions used to state and prove the transpose claims -/

/-- The number of stored entries among the first `P` whose row index is
`i` (so `rowCounts d i = cntBelow d i (d.A.p d.n)`). -/
def cntBelow (d : Data) (i P : ℕ) : ℕ :=
  ((Finset.range P).filter (fun q => d.A.i q = i)).card

/-- The output slot into which the scatter pass of `transpose` writes the
stored entry `q`: the start of the output block of its row, plus the number
of earlier entries sharing that row (the scatter processes entries in
increasing `q` order). -/
def slot (d : Data) (q : ℕ) : ℕ :=
  cs_cumsum (rowCounts d) d.m (d.A.i q) + cntBelow d (d.A.i q) q

/-- The column of `A` that contains the stored entry `q`: the number of
columns whose slice ends at or before `q`.  For a well-formed matrix this
is the unique `j` with `A.p j ≤ q < A.p (j+1)`. -/
def col (d : Data) (q : ℕ) : ℕ :=
  ((Finset.range d.n).filter (fun j => d.A.p (j + 1) ≤ q)).card

/-- The sparse-matrix denotation of CSC data: the `(r, c)` entry is the sum
of the stored values in the slice of column `c` carrying row index `r`
(duplicate entries, which CSC permits, contribute additively). -/
def cscEntry (P I : IVec) (X : Vec) (r c : ℕ) : ℚ :=
  ∑ q ∈ Finset.Ico (P c) (P (c + 1)), if I q = r then X q else 0

/-- The denotation of the input matrix `A`. -/
def Aentry (d : Data) (r c : ℕ) : ℚ := cscEntry d.A.p d.A.i d.A.x r c

/-- The mathematical operator of the linear system, in coordinates:
`(Lop d x) i = ρ·x i + (Aᵀ(A x)) i` (meaningful for `i < n`). -/
def Lop (d : Data) (x : Vec) : Vec :=
  fun i =>
    d.RHO_X * x i +
      ∑ r ∈ Finset.range d.m,
        Aentry d r i * (∑ c ∈ Finset.range d.n, Aentry d r c * x c)

/-- The inner product weighted by the diagonal preconditioner:
`Mip M n x y = Σ_{i<n} M i · x i · y i`.  This is the bilinear form in
which consecutive PCG residuals are orthogonal. -/
def Mip (M : Vec) (n : ℕ) (x y : Vec) : ℚ :=
  ∑ i ∈ Finset.range n, M i * x i * y i

/-- The loop-carried state of `pcg` (lines 205–221): iterate `x` (stored in
the right-hand-side buffer), residual `r`, direction `p`, preconditioned
residual `z`, and the inner product `ipzr`. -/
structure CGState where
  x : Vec
  r : Vec
  p : Vec
  z : Vec
  ipzr : ℚ

/-- One full body of the `pcg` loop (lines 206–220) without the early
return: exactly the updates applied to the loop-carried state.  `pcgLoop`
run for one iteration computes this state and exits early (keeping `x` and
`r`) when the residual test fires. -/
def pcgStep (d : Data) (pr : Priv) (st : CGState) : CGState :=
  let Ap := matVec d pr st.p pr.Ap
  let alpha := st.ipzr / innerProd st.p Ap d.n
  let xNew := addScaledArray st.x st.p d.n alpha
  let rNew := addScaledArray st.r Ap d.n (-alpha)
  let pz := applyPreConditioner pr.M st.z rNew d.n
  let pNew := addScaledArray (scaleArray st.p (pz.2 / st.ipzr) d.n) pz.1 d.n 1
  { x := xNew, r := rNew, p := pNew, z := pz.1, ipzr := pz.2 }

/-- The state after `k` full loop iterations. -/
def cgIter (d : Data) (pr : Priv) (st0 : CGState) : ℕ → CGState
  | 0 => st0
  | k + 1 => pcgStep d pr (cgIter d pr st0 k)

/-- The initialization phase of `pcg` (lines 193–203), producing the state
with which the loop starts. -/
def pcgInit (d : Data) (pr : Priv) (s : Option Vec) (b : Vec) : CGState :=
  let xr : Vec × Vec :=
    match s with
    | none => (memset0 b d.n, memcpy pr.r b d.n)
    | some sv =>
      let r := matVec d pr sv pr.r
      let r := addScaledArray r b d.n (-1)
      let r := scaleArray r (-1) d.n
      (memcpy b sv d.n, r)
  let pz := applyPreConditioner pr.M pr.z xr.2 d.n
  { x := xr.1, r := xr.2, p := memcpy pr.p pz.1 d.n, z := pz.1, ipzr := pz.2 }

/-- The CG step size `α = ipzr / ⟨p, L p⟩` of one loop iteration, written
with the mathematical operator (the loop computes the denominator through
`matVec`, which agrees below `n`). -/
def cgAlpha (d : Data) (st : CGState) : ℚ :=
  st.ipzr / innerProd st.p (Lop d st.p) d.n

/-- The loop invariant of the scatter pass of `transpose`, after the first
`P` stored entries (all entries of the already-processed columns) have been
scattered: every write cursor sits at the start of its row block advanced
by the number of processed entries of that row, and every processed entry
`q` has been written at `slot d q`, carrying its originating column and its
value. -/
def ScatterInv (d : Data) (P : ℕ) (st : TState) : Prop :=
  (∀ i, st.z i = cs_cumsum (rowCounts d) d.m i + cntBelow d i P) ∧
  (∀ j < d.n, ∀ q, d.A.p j ≤ q → q < d.A.p (j + 1) → q < P →
    st.Ci (slot d q) = j ∧ st.Cx (slot d q) = d.A.x q)

/-! ## Basic facts about the embedded primitives -/

/-- The Euclidean norm is non-negative. -/
theorem calcNorm_nonneg (v : Vec) (n : ℕ) : 0 ≤ calcNorm v n :=
  Real.sqrt_nonneg _

/-- Justification for the exact convergence test used in `pcgLoop`: for a
positive tolerance, the source test `calcNorm r n < tol` is equivalent to
the rational test `calcNormSq r n < tol ^ 2`. -/
theorem sqrt_lt_pos_iff_sq (v : Vec) (n : ℕ) (t : ℚ) (ht : 0 < t) :
    calcNorm v n < (t : ℝ) ↔ calcNormSq v n < t ^ 2 := by
  unfold calcNorm
  rw [Real.sqrt_lt' (by exact_mod_cast ht)]
  exact_mod_cast Iff.rfl

/-- The floor tolerance is positive. -/
theorem CG_BEST_TOL_pos : (0 : ℚ) < CG_BEST_TOL := by norm_num [CG_BEST_TOL]

/-! ## C2 — `initPriv` failure atomicity -/

/-- C2: the claim that `initPriv` either returns a fully initialized handle
or the failure signal is violated by the code: the check at line 72 covers
`p, r, Ap, tmp, Ati, Atp, Atx` but not `z` and not `M`, so when only the
allocation of `z` (the 6th allocation, oracle index 5) fails, the caller
receives a handle whose `z` buffer is NULL. -/
theorem initPriv_returns_partial_handle_on_z_alloc_failure :
    initPrivAlloc (fun k => k != 5) =
      InitResult.ok
        { p := true, r := true, Ap := true, tmp := true, z := false,
          M := true, Ati := true, Atp := true, Atx := true } := by
  decide

/-! ## C3 — tolerance of a final (negative-index) solve -/

/-- C3 counterexample: with outer-iteration index `−1` and a right-hand
side of Euclidean norm `2` (n = 1, single entry `2`), the tolerance used is
`2e−7`, not the floor `1e−7`; so the tolerance of a final solve is not the
floor tolerance "regardless of the norm of the right-hand side". -/
theorem solveLinSysCgTol_final_solve_ne_floor :
    solveLinSysCgTol { m := 1, n := 1, A := id2Data.A, RHO_X := 1 } 2
        (fun _ => 2) (-1) ≠ (CG_BEST_TOL : ℝ) := by
  have hsq : calcNormSq (fun _ => (2 : ℚ)) 1 = 4 := by
    norm_num [calcNormSq, innerProd]
  have hnorm : calcNorm (fun _ => (2 : ℚ)) 1 = 2 := by
    rw [calcNorm, hsq]
    rw [show (((4 : ℚ) : ℝ)) = 2 ^ 2 by norm_num]
    exact Real.sqrt_sq (by norm_num)
  unfold solveLinSysCgTol
  rw [if_pos (show (-1 : ℤ) < 0 by decide)]
  show max (calcNorm (fun _ => (2 : ℚ)) 1 * _) _ ≠ _
  rw [hnorm, max_eq_left (by norm_num [CG_BEST_TOL])]
  norm_num [CG_BEST_TOL]

/-- C3 amended: with a negative outer-iteration index the tolerance used is
`max(‖b₁‖ · 1e−7, 1e−7)`: it equals the floor tolerance whenever
`‖b₁‖ ≤ 1`, and equals `‖b₁‖ · 1e−7` whenever `‖b₁‖ ≥ 1` — the `τ`-factor
of the schedule is floored, not the final tolerance. -/
theorem solveLinSysCgTol_final_solve (d : Data) (cgRate : ℝ) (b : Vec)
    (iter : ℤ) (hIter : iter < 0) :
    (calcNorm b d.n ≤ 1 →
      solveLinSysCgTol d cgRate b iter = (CG_BEST_TOL : ℝ)) ∧
    (1 ≤ calcNorm b d.n →
      solveLinSysCgTol d cgRate b iter = calcNorm b d.n * (CG_BEST_TOL : ℝ)) := by
  have hc : (0 : ℝ) < (CG_BEST_TOL : ℝ) := by exact_mod_cast CG_BEST_TOL_pos
  unfold solveLinSysCgTol
  rw [if_pos hIter]
  constructor
  · intro hb
    apply max_eq_right
    calc calcNorm b d.n * (CG_BEST_TOL : ℝ) ≤ 1 * (CG_BEST_TOL : ℝ) :=
          mul_le_mul_of_nonneg_right hb (le_of_lt hc)
      _ = (CG_BEST_TOL : ℝ) := one_mul _
  · intro hb
    apply max_eq_left
    calc (CG_BEST_TOL : ℝ) = 1 * (CG_BEST_TOL : ℝ) := (one_mul _).symm
      _ ≤ calcNorm b d.n * (CG_BEST_TOL : ℝ) :=
          mul_le_mul_of_nonneg_right hb (le_of_lt hc)

/-- C3 witness: the amended statement applied at a concrete final solve. -/
theorem solveLinSysCgTol_final_solve_witness :
    ((-1 : ℤ) < 0) ∧
    ((calcNorm (fun _ => 0) id2Data.n ≤ 1 →
        solveLinSysCgTol id2Data 2 (fun _ => 0) (-1) = (CG_BEST_TOL : ℝ)) ∧
      (1 ≤ calcNorm (fun _ => 0) id2Data.n →
        solveLinSysCgTol id2Data 2 (fun _ => 0) (-1) =
          calcNorm (fun _ => 0) id2Data.n * (CG_BEST_TOL : ℝ))) :=
  ⟨by decide, solveLinSysCgTol_final_solve id2Data 2 (fun _ => 0) (-1) (by decide)⟩

/-! ## C8 — the tolerance schedule tightens across outer iterations -/

/-- C8: for any fixed right-hand-side buffer and a non-negative tightening
exponent (the spec configures `cgRate` as the rate at which the schedule
tightens), the tolerance computed at a later outer iteration is at most the
tolerance computed at an earlier one. -/
theorem solveLinSysCgTol_tightening (d : Data) (cgRate : ℝ) (hRate : 0 ≤ cgRate)
    (b : Vec) (iter1 iter2 : ℤ) (h1 : 0 ≤ iter1) (h12 : iter1 < iter2) :
    solveLinSysCgTol d cgRate b iter2 ≤ solveLinSysCgTol d cgRate b iter1 := by
  have h2 : 0 ≤ iter2 := le_trans h1 (le_of_lt h12)
  have hb1 : (0 : ℝ) < (iter1 : ℝ) + 1 := by
    have : (0 : ℝ) ≤ (iter1 : ℝ) := by exact_mod_cast h1
    linarith
  have hb2 : (0 : ℝ) < (iter2 : ℝ) + 1 := by
    have : (0 : ℝ) ≤ (iter2 : ℝ) := by exact_mod_cast h2
    linarith
  unfold solveLinSysCgTol
  rw [if_neg (not_lt.mpr h1), if_neg (not_lt.mpr h2)]
  apply max_le_max _ le_rfl
  apply mul_le_mul_of_nonneg_left _ (calcNorm_nonneg b d.n)
  apply one_div_le_one_div_of_le (Real.rpow_pos_of_pos hb1 cgRate)
  apply Real.rpow_le_rpow (le_of_lt hb1) _ hRate
  have : (iter1 : ℝ) ≤ (iter2 : ℝ) := by exact_mod_cast le_of_lt h12
  linarith

/-- C8 witness: the tightening statement applied at concrete outer
iterations 0 and 1 with exponent 2. -/
theorem solveLinSysCgTol_tightening_witness :
    ((0 : ℝ) ≤ 2) ∧ ((0 : ℤ) ≤ 0) ∧ ((0 : ℤ) < 1) ∧
    solveLinSysCgTol id2Data 2 (fun _ => 1) 1 ≤
      solveLinSysCgTol id2Data 2 (fun _ => 1) 0 :=
  ⟨by norm_num, by decide, by decide,
    solveLinSysCgTol_tightening id2Data 2 (by norm_num) (fun _ => 1) 0 1
      (by decide) (by decide)⟩

/-! ## C6 — the Jacobi preconditioner -/

/-- C6: every preconditioner entry equals
`1 / (ρ + Σ of squares of the nonzero values stored in column j)`, is
strictly positive when `ρ > 0`, and on the 2×2 identity scenario with
`ρ = 1` the preconditioner is `[1/2, 1/2]`. -/
theorem getPreconditioner_correct (d : Data) (pr : Priv) (hRho : 0 < d.RHO_X) :
    (∀ j < d.n,
      (getPreconditioner d pr).M j =
          1 / (d.RHO_X + ∑ q ∈ Finset.Ico (d.A.p j) (d.A.p (j + 1)),
                d.A.x q * d.A.x q) ∧
        0 < (getPreconditioner d pr).M j) ∧
    (getPreconditioner id2Data junkPriv).M 0 = 1 / 2 ∧
    (getPreconditioner id2Data junkPriv).M 1 = 1 / 2 := by
  refine ⟨fun j hj => ?_,
    by norm_num [getPreconditioner, id2Data, junkPriv, calcNormSq, innerProd,
      Nat.min_def],
    by norm_num [getPreconditioner, id2Data, junkPriv, calcNormSq, innerProd,
      Nat.min_def]⟩
  have hslice :
      calcNormSq (fun k => d.A.x (d.A.p j + k)) (d.A.p (j + 1) - d.A.p j) =
        ∑ q ∈ Finset.Ico (d.A.p j) (d.A.p (j + 1)), d.A.x q * d.A.x q := by
    unfold calcNormSq innerProd
    rw [Finset.sum_Ico_eq_sum_range]
  have hpos :
      0 < d.RHO_X + ∑ q ∈ Finset.Ico (d.A.p j) (d.A.p (j + 1)),
          d.A.x q * d.A.x q := by
    have : (0 : ℚ) ≤ ∑ q ∈ Finset.Ico (d.A.p j) (d.A.p (j + 1)),
        d.A.x q * d.A.x q :=
      Finset.sum_nonneg fun q _ => mul_self_nonneg _
    linarith
  constructor
  · show (if j < d.n then _ else _) = _
    rw [if_pos hj, hslice]
  · show 0 < (if j < d.n then _ else _)
    rw [if_pos hj, hslice]
    exact one_div_pos.mpr hpos

/-- C6 witness: the preconditioner statement applied to the concrete 2×2
identity scenario with `ρ = 1`. -/
theorem getPreconditioner_correct_witness :
    (0 : ℚ) < id2Data.RHO_X ∧
    ((∀ j < id2Data.n,
      (getPreconditioner id2Data junkPriv).M j =
          1 / (id2Data.RHO_X +
            ∑ q ∈ Finset.Ico (id2Data.A.p j) (id2Data.A.p (j + 1)),
              id2Data.A.x q * id2Data.A.x q) ∧
        0 < (getPreconditioner id2Data junkPriv).M j) ∧
    (getPreconditioner id2Data junkPriv).M 0 = 1 / 2 ∧
    (getPreconditioner id2Data junkPriv).M 1 = 1 / 2) :=
  ⟨by norm_num [id2Data],
    getPreconditioner_correct id2Data junkPriv (by norm_num [id2Data])⟩

/-! ## C9 — statistics reporting and reset -/

/-- C9: starting from the state left by `initPriv`, two solves with
non-negative outer indices that take 3 and 5 CG iterations accumulate
`totCgIts = 8`; `getLinSysSummary` with `info.iter = 1` then reports the
average `8 / (1 + 1) = 4.0` and resets both shared counters to zero. -/
theorem getLinSysSummary_two_solves_average (g : LinSysStats)
    (iter1 iter2 : ℤ) (h1 : 0 ≤ iter1) (h2 : 0 ≤ iter2) (t1 t2 : ℚ) :
    (getLinSysSummary
        (solveLinSysStats
          (solveLinSysStats (initPrivStats g) 3 iter1 t1) 5 iter2 t2) 1).1.1 = 4 ∧
    (getLinSysSummary
        (solveLinSysStats
          (solveLinSysStats (initPrivStats g) 3 iter1 t1) 5 iter2 t2) 1).2 =
      { totCgIts := 0, totalSolveTime := 0 } := by
  constructor
  · simp only [getLinSysSummary, solveLinSysStats, initPrivStats,
      if_pos h1, if_pos h2]
    norm_num
  · rfl

/-- C9 witness: the statistics statement applied at concrete outer indices
0 and 0 and zero elapsed times. -/
theorem getLinSysSummary_two_solves_average_witness :
    ((0 : ℤ) ≤ 0) ∧
    ((getLinSysSummary
        (solveLinSysStats
          (solveLinSysStats (initPrivStats { totCgIts := 0, totalSolveTime := 0 })
            3 0 0) 5 0 0) 1).1.1 = 4 ∧
      (getLinSysSummary
        (solveLinSysStats
          (solveLinSysStats (initPrivStats { totCgIts := 0, totalSolveTime := 0 })
            3 0 0) 5 0 0) 1).2 =
        { totCgIts := 0, totalSolveTime := 0 }) :=
  ⟨by decide,
    getLinSysSummary_two_solves_average { totCgIts := 0, totalSolveTime := 0 }
      0 0 (by decide) (by decide) 0 0⟩

/-! ## C10 — the statistics are shared state wiped by any initialization -/

/-- C10: the running counters are the file-scope state `LinSysStats`,
not fields of `Priv`; `initPriv` sets both to zero unconditionally, so
after any accumulation history produced by solves of other instances, an
initialization leaves both counters at zero and a subsequent summary
reports a zero average. -/
theorem initPriv_erases_shared_stats (g : LinSysStats)
    (history : List (ℕ × ℤ × ℚ)) (iter : ℕ) :
    (initPrivStats
        (history.foldl (fun s h => solveLinSysStats s h.1 h.2.1 h.2.2) g)).totCgIts
        = 0 ∧
    (initPrivStats
        (history.foldl (fun s h => solveLinSysStats s h.1 h.2.1 h.2.2) g)).totalSolveTime
        = 0 ∧
    (getLinSysSummary
        (initPrivStats
          (history.foldl (fun s h => solveLinSysStats s h.1 h.2.1 h.2.2) g))
        iter).1.1 = 0 := by
  refine ⟨rfl, rfl, ?_⟩
  simp [getLinSysSummary, initPrivStats]

/-! ## C5 — correctness of the transpose builder -/

/-- Column pointers of a well-formed matrix are monotone up to `n`. -/
theorem Ap_mono (d : Data) (hv : AValid d) {j1 j2 : ℕ} (h12 : j1 ≤ j2)
    (h2n : j2 ≤ d.n) : d.A.p j1 ≤ d.A.p j2 := by
  have main : ∀ k, j1 + k ≤ d.n → d.A.p j1 ≤ d.A.p (j1 + k) := by
    intro k
    induction k with
    | zero => intro _; exact le_rfl
    | succ k ih =>
      intro hle
      rw [Nat.add_succ]
      exact le_trans (ih (by omega)) (hv.2.1 _ (by omega))
  obtain ⟨k, rfl⟩ := Nat.exists_eq_add_of_le h12
  exact main k h2n

/-- One step of the running sums. -/
theorem cs_cumsum_succ (c : IVec) (m i : ℕ) (h : i < m) :
    cs_cumsum c m (i + 1) = cs_cumsum c m i + c i := by
  unfold cs_cumsum
  rw [min_eq_left (Nat.succ_le_of_lt h), min_eq_left (le_of_lt h),
    Finset.sum_range_succ]

/-- The running sums are monotone. -/
theorem cs_cumsum_mono (c : IVec) (m : ℕ) {i j : ℕ} (h : i ≤ j) :
    cs_cumsum c m i ≤ cs_cumsum c m j :=
  Finset.sum_le_sum_of_subset
    (Finset.range_subset.mpr (min_le_min_right m h))

/-- The running sum at `m` is the total of the counts. -/
theorem cs_cumsum_self (c : IVec) (m : ℕ) :
    cs_cumsum c m m = ∑ k ∈ Finset.range m, c k := by
  simp [cs_cumsum]

/-- The row counts are the `cntBelow` at the total number of entries. -/
theorem rowCounts_eq_cntBelow (d : Data) (i : ℕ) :
    rowCounts d i = cntBelow d i (d.A.p d.n) := rfl

/-- For a well-formed matrix, the row counts sum to the number of stored
entries, so the transpose column pointers end at `nnz(A)`. -/
theorem cs_cumsum_rowCounts_total (d : Data) (hv : AValid d) :
    cs_cumsum (rowCounts d) d.m d.m = d.A.p d.n := by
  rw [cs_cumsum_self]
  have := Finset.card_eq_sum_card_fiberwise
    (f := fun q => d.A.i q) (s := Finset.range (d.A.p d.n))
    (t := Finset.range d.m)
    (fun q hq => Finset.mem_range.mpr (hv.2.2 q (Finset.mem_range.mp hq)))
  rw [Finset.card_range] at this
  exact this.symm

theorem cntBelow_zero (d : Data) (i : ℕ) : cntBelow d i 0 = 0 := by
  simp [cntBelow]

theorem cntBelow_succ (d : Data) (i q : ℕ) :
    cntBelow d i (q + 1) =
      if d.A.i q = i then cntBelow d i q + 1 else cntBelow d i q := by
  unfold cntBelow
  rw [Finset.range_succ, Finset.filter_insert]
  split
  · rw [Finset.card_insert_of_not_mem fun hmem =>
      absurd (Finset.mem_range.mp (Finset.filter_subset _ _ hmem)) (lt_irrefl q)]
  · rfl

theorem cntBelow_mono (d : Data) (i : ℕ) {P Q : ℕ} (h : P ≤ Q) :
    cntBelow d i P ≤ cntBelow d i Q :=
  Finset.card_le_card
    (Finset.filter_subset_filter _ (Finset.range_subset.mpr h))

/-- An entry of row `i` strictly advances the count of its row. -/
theorem cntBelow_lt_of_mem (d : Data) {i q Q : ℕ} (hq : q < Q)
    (hrow : d.A.i q = i) : cntBelow d i q < cntBelow d i Q := by
  have hstep : cntBelow d i (q + 1) = cntBelow d i q + 1 := by
    rw [cntBelow_succ, if_pos hrow]
  calc cntBelow d i q < cntBelow d i q + 1 := Nat.lt_succ_self _
    _ = cntBelow d i (q + 1) := hstep.symm
    _ ≤ cntBelow d i Q := cntBelow_mono d i hq

/-- The slot of an entry lies inside the output block of its row. -/
theorem slot_lt_block_end (d : Data) (hv : AValid d) {q : ℕ}
    (hq : q < d.A.p d.n) :
    slot d q < cs_cumsum (rowCounts d) d.m (d.A.i q + 1) := by
  have him : d.A.i q < d.m := hv.2.2 q hq
  rw [cs_cumsum_succ _ _ _ him, slot]
  exact Nat.add_lt_add_left
    (by rw [rowCounts_eq_cntBelow]; exact cntBelow_lt_of_mem d hq rfl) _

/-- The slot of an entry starts at or after the block of its row. -/
theorem block_start_le_slot (d : Data) (q : ℕ) :
    cs_cumsum (rowCounts d) d.m (d.A.i q) ≤ slot d q :=
  Nat.le_add_right _ _

/-- The slot of every stored entry is a valid output index. -/
theorem slot_lt_nnz (d : Data) (hv : AValid d) {q : ℕ} (hq : q < d.A.p d.n) :
    slot d q < d.A.p d.n := by
  have him : d.A.i q < d.m := hv.2.2 q hq
  calc slot d q < cs_cumsum (rowCounts d) d.m (d.A.i q + 1) :=
        slot_lt_block_end d hv hq
    _ ≤ cs_cumsum (rowCounts d) d.m d.m := cs_cumsum_mono _ _ him
    _ = d.A.p d.n := cs_cumsum_rowCounts_total d hv

/-- Distinct stored entries are scattered to distinct slots. -/
theorem slot_inj (d : Data) (hv : AValid d) {q q' : ℕ}
    (hq : q < d.A.p d.n) (hq' : q' < d.A.p d.n)
    (h : slot d q = slot d q') : q = q' := by
  have hrowAux : ∀ {a b : ℕ}, a < d.A.p d.n → b < d.A.p d.n →
      d.A.i a < d.A.i b → slot d a < slot d b := by
    intro a b ha hb hab
    calc slot d a < cs_cumsum (rowCounts d) d.m (d.A.i a + 1) :=
          slot_lt_block_end d hv ha
      _ ≤ cs_cumsum (rowCounts d) d.m (d.A.i b) :=
          cs_cumsum_mono _ _ (Nat.succ_le_of_lt hab)
      _ ≤ slot d b := block_start_le_slot d b
  rcases lt_trichotomy (d.A.i q) (d.A.i q') with hlt | heq | hgt
  · exact absurd h (ne_of_lt (hrowAux hq hq' hlt))
  · rcases lt_trichotomy q q' with hqlt | hqeq | hqgt
    · exfalso
      have hcnt : cntBelow d (d.A.i q') q < cntBelow d (d.A.i q') q' :=
        cntBelow_lt_of_mem d hqlt heq
      have : slot d q < slot d q' := by
        rw [slot, slot, heq]
        exact Nat.add_lt_add_left hcnt _
      exact absurd h (ne_of_lt this)
    · exact hqeq
    · exfalso
      have hcnt : cntBelow d (d.A.i q') q' < cntBelow d (d.A.i q') q :=
        cntBelow_lt_of_mem d hqgt rfl
      have : slot d q' < slot d q := by
        rw [slot, slot, heq]
        exact Nat.add_lt_add_left hcnt _
      exact absurd h.symm (ne_of_lt this)
  · exact absurd h.symm (ne_of_lt (hrowAux hq' hq hgt))

/-- The column function really picks the unique containing column. -/
theorem col_eq (d : Data) (hv : AValid d) {j q : ℕ} (hj : j < d.n)
    (h1 : d.A.p j ≤ q) (h2 : q < d.A.p (j + 1)) : col d q = j := by
  unfold col
  have hset : (Finset.range d.n).filter (fun j' => d.A.p (j' + 1) ≤ q) =
      Finset.range j := by
    ext j'
    simp only [Finset.mem_filter, Finset.mem_range]
    constructor
    · rintro ⟨hj'n, hle⟩
      by_contra hnot
      have hjj : j ≤ j' := le_of_not_lt hnot
      have : d.A.p (j + 1) ≤ d.A.p (j' + 1) :=
        Ap_mono d hv (Nat.succ_le_succ hjj) (Nat.succ_le_of_lt hj'n)
      omega
    · intro hj'j
      refine ⟨lt_trans hj'j hj, ?_⟩
      have : d.A.p (j' + 1) ≤ d.A.p j :=
        Ap_mono d hv (Nat.succ_le_of_lt hj'j) (le_of_lt hj)
      omega
  rw [hset, Finset.card_range]

/-- Scattering one entry of column `j` preserves the invariant. -/
theorem scatterEntry_inv (d : Data) (hv : AValid d) {j : ℕ} (hj : j < d.n)
    {q0 : ℕ} (h1 : d.A.p j ≤ q0) (h2 : q0 < d.A.p (j + 1)) {st : TState}
    (hInv : ScatterInv d q0 st) :
    ScatterInv d (q0 + 1) (scatterEntry d.A.i d.A.x j st q0) := by
  obtain ⟨hz, hCi⟩ := hInv
  have hq0nnz : q0 < d.A.p d.n :=
    lt_of_lt_of_le h2 (Ap_mono d hv (Nat.succ_le_of_lt hj) le_rfl)
  have hslot : st.z (d.A.i q0) = slot d q0 := by rw [hz, slot]
  constructor
  · intro i
    show Function.update st.z (d.A.i q0) (st.z (d.A.i q0) + 1) i = _
    by_cases hi : i = d.A.i q0
    · subst hi
      rw [Function.update_same, hz, cntBelow_succ, if_pos rfl]
      omega
    · rw [Function.update_noteq hi, hz, cntBelow_succ,
        if_neg (fun he => hi he.symm)]
  · intro j' hj' q hq1 hq2 hqlt
    by_cases hq : q = q0
    · subst hq
      have hjj : j' = j := by
        have e1 : col d q = j' := col_eq d hv hj' hq1 hq2
        have e2 : col d q = j := col_eq d hv hj h1 h2
        rw [e1] at e2
        exact e2
      subst hjj
      constructor
      · show Function.update st.Ci (st.z (d.A.i q)) j' (slot d q) = j'
        rw [hslot, Function.update_same]
      · show Function.update st.Cx (st.z (d.A.i q)) (d.A.x q) (slot d q) = _
        rw [hslot, Function.update_same]
    · have hqlt' : q < q0 := lt_of_le_of_ne (Nat.lt_succ_iff.mp hqlt) hq
      have hold := hCi j' hj' q hq1 hq2 hqlt'
      have hqnnz : q < d.A.p d.n :=
        lt_of_lt_of_le hq2 (Ap_mono d hv (Nat.succ_le_of_lt hj') le_rfl)
      have hne : slot d q ≠ slot d q0 :=
        fun he => hq (slot_inj d hv hqnnz hq0nnz he)
      constructor
      · show Function.update st.Ci (st.z (d.A.i q0)) j (slot d q) = j'
        rw [hslot, Function.update_noteq hne]
        exact hold.1
      · show Function.update st.Cx (st.z (d.A.i q0)) (d.A.x q0) (slot d q) = _
        rw [hslot, Function.update_noteq hne]
        exact hold.2

/-- Scattering a column slice preserves the invariant. -/
theorem scatterSeq_inv (d : Data) (hv : AValid d) {j : ℕ} (hj : j < d.n) :
    ∀ (len a : ℕ), d.A.p j ≤ a → a + len = d.A.p (j + 1) →
      ∀ st : TState, ScatterInv d a st →
      ScatterInv d (d.A.p (j + 1))
        ((List.range' a len).foldl (scatterEntry d.A.i d.A.x j) st) := by
  intro len
  induction len with
  | zero =>
    intro a ha hend st hst
    have : a = d.A.p (j + 1) := by omega
    subst this
    exact hst
  | succ len ih =>
    intro a ha hend st hst
    have hlt : a < d.A.p (j + 1) := by omega
    show ScatterInv d (d.A.p (j + 1))
      ((List.range' (a + 1) len).foldl (scatterEntry d.A.i d.A.x j)
        (scatterEntry d.A.i d.A.x j st a))
    exact ih (a + 1) (le_trans ha (Nat.le_succ a)) (by omega) _
      (scatterEntry_inv d hv hj ha hlt hst)

/-- Scattering the first `jEnd` columns establishes the invariant at the
end of column `jEnd`. -/
theorem transposeScatter_inv (d : Data) (hv : AValid d) :
    ∀ jEnd : ℕ, jEnd ≤ d.n →
      ∀ st : TState, ScatterInv d (d.A.p 0) st →
      ScatterInv d (d.A.p jEnd) ((List.range jEnd).foldl (scatterCol d) st) := by
  intro jEnd
  induction jEnd with
  | zero => intro _ st hst; exact hst
  | succ k ih =>
    intro hk st hst
    have hkn : k < d.n := hk
    rw [List.range_succ, List.foldl_append]
    show ScatterInv d (d.A.p (k + 1))
      (scatterCol d ((List.range k).foldl (scatterCol d) st) k)
    have hInvK := ih (le_of_lt hkn) st hst
    unfold scatterCol
    exact scatterSeq_inv d hv hkn (d.A.p (k + 1) - d.A.p k) (d.A.p k) le_rfl
      (by have := hv.2.1 k hkn; omega) _ hInvK

/-- The invariant holds for the full transpose construction. -/
theorem transpose_full_inv (d : Data) (pr : Priv) (hv : AValid d) :
    ScatterInv d (d.A.p d.n)
      (transposeScatter d
        ⟨cs_cumsum (rowCounts d) d.m, pr.Ati, pr.Atx⟩) := by
  apply transposeScatter_inv d hv d.n le_rfl
  rw [hv.1]
  constructor
  · intro i
    rw [cntBelow_zero]
    rfl
  · intro j' _ q _ _ hq0
    exact absurd hq0 (Nat.not_lt_zero q)

/-- The concrete 2×2 identity matrix is well-formed. -/
theorem id2Valid : AValid id2Data := ⟨rfl, by decide, by decide⟩

/-- C5: for a well-formed CSC matrix, `transpose` preserves the total
nonzero count (`Atp[m] = Ap[n]`), and the map `slot d` is a bijection of
the entry indices under which every stored entry `A[i,j]` appears exactly
once in the output — inside the output block of column `i` of `Aᵀ`, with
row index `j` and an equal value. -/
theorem transpose_correct (d : Data) (pr : Priv) (hv : AValid d) :
    (transpose d pr).Atp d.m = d.A.p d.n ∧
    Set.BijOn (slot d) (Set.Iio (d.A.p d.n)) (Set.Iio (d.A.p d.n)) ∧
    (∀ j < d.n, ∀ q, d.A.p j ≤ q → q < d.A.p (j + 1) →
      (transpose d pr).Ati (slot d q) = j ∧
      (transpose d pr).Atx (slot d q) = d.A.x q ∧
      (transpose d pr).Atp (d.A.i q) ≤ slot d q ∧
      slot d q < (transpose d pr).Atp (d.A.i q + 1)) := by
  have hInv := transpose_full_inv d pr hv
  have hAtp : (transpose d pr).Atp = cs_cumsum (rowCounts d) d.m := rfl
  have hAti : (transpose d pr).Ati =
      (transposeScatter d
        ⟨cs_cumsum (rowCounts d) d.m, pr.Ati, pr.Atx⟩).Ci := rfl
  have hAtx : (transpose d pr).Atx =
      (transposeScatter d
        ⟨cs_cumsum (rowCounts d) d.m, pr.Ati, pr.Atx⟩).Cx := rfl
  refine ⟨?_, ?_, ?_⟩
  · rw [hAtp]
    exact cs_cumsum_rowCounts_total d hv
  · have himg : Finset.image (fun q => slot d q) (Finset.range (d.A.p d.n)) =
        Finset.range (d.A.p d.n) := by
      apply Finset.eq_of_subset_of_card_le
      · intro y hy
        obtain ⟨q, hq, hqy⟩ := Finset.mem_image.mp hy
        exact Finset.mem_range.mpr
          (hqy ▸ slot_lt_nnz d hv (Finset.mem_range.mp hq))
      · rw [Finset.card_image_of_injOn
          (fun q hq q' hq' h =>
            slot_inj d hv (Finset.mem_range.mp hq) (Finset.mem_range.mp hq') h)]
    refine ⟨fun q hq => slot_lt_nnz d hv hq,
      fun q hq q' hq' h => slot_inj d hv hq hq' h,
      fun y hy => ?_⟩
    have : y ∈ Finset.image (fun q => slot d q) (Finset.range (d.A.p d.n)) := by
      rw [himg]
      exact Finset.mem_range.mpr hy
    obtain ⟨q, hq, hqy⟩ := Finset.mem_image.mp this
    exact ⟨q, Finset.mem_range.mp hq, hqy⟩
  · intro j hj q hq1 hq2
    have hqnnz : q < d.A.p d.n :=
      lt_of_lt_of_le hq2 (Ap_mono d hv (Nat.succ_le_of_lt hj) le_rfl)
    have hCiCx := hInv.2 j hj q hq1 hq2 hqnnz
    refine ⟨by rw [hAti]; exact hCiCx.1, by rw [hAtx]; exact hCiCx.2, ?_, ?_⟩
    · rw [hAtp]
      exact block_start_le_slot d q
    · rw [hAtp]
      exact slot_lt_block_end d hv hqnnz

/-- C5 witness: the transpose statement applied to the concrete 2×2
identity matrix. -/
theorem transpose_correct_witness :
    AValid id2Data ∧
    ((transpose id2Data junkPriv).Atp id2Data.m = id2Data.A.p id2Data.n ∧
      Set.BijOn (slot id2Data) (Set.Iio (id2Data.A.p id2Data.n))
        (Set.Iio (id2Data.A.p id2Data.n)) ∧
      (∀ j < id2Data.n, ∀ q, id2Data.A.p j ≤ q → q < id2Data.A.p (j + 1) →
        (transpose id2Data junkPriv).Ati (slot id2Data q) = j ∧
        (transpose id2Data junkPriv).Atx (slot id2Data q) = id2Data.A.x q ∧
        (transpose id2Data junkPriv).Atp (id2Data.A.i q) ≤ slot id2Data q ∧
        slot id2Data q < (transpose id2Data junkPriv).Atp (id2Data.A.i q + 1))) :=
  ⟨id2Valid, transpose_correct id2Data junkPriv id2Valid⟩

/-! ## C4 — the implicit operator computes `ρ·x + Aᵀ(A x)` -/

/-- Every stored entry lies in some column slice. -/
theorem exists_col (d : Data) (hv : AValid d) {q : ℕ} (hq : q < d.A.p d.n) :
    ∃ j, j < d.n ∧ d.A.p j ≤ q ∧ q < d.A.p (j + 1) := by
  have main : ∀ k, k ≤ d.n → q < d.A.p k →
      ∃ j, j < k ∧ d.A.p j ≤ q ∧ q < d.A.p (j + 1) := by
    intro k
    induction k with
    | zero =>
      intro _ h0
      rw [hv.1] at h0
      exact absurd h0 (Nat.not_lt_zero q)
    | succ k ih =>
      intro hk hq1
      by_cases hcase : d.A.p k ≤ q
      · exact ⟨k, Nat.lt_succ_self k, hcase, hq1⟩
      · obtain ⟨j, h1, h2, h3⟩ := ih (by omega) (by omega)
        exact ⟨j, by omega, h2, h3⟩
  exact main d.n le_rfl hq

/-- The scattered slot of every stored entry carries its originating column
(as computed by `col`) and its value. -/
theorem transpose_entry (d : Data) (pr0 : Priv) (hv : AValid d) {q : ℕ}
    (hq : q < d.A.p d.n) :
    (transpose d pr0).Ati (slot d q) = col d q ∧
    (transpose d pr0).Atx (slot d q) = d.A.x q := by
  obtain ⟨j, hjn, hj1, hj2⟩ := exists_col d hv hq
  have hc : col d q = j := col_eq d hv hjn hj1 hj2
  have hinv := (transpose_full_inv d pr0 hv).2 j hjn q hj1 hj2 hq
  exact ⟨by rw [hc]; exact hinv.1, hinv.2⟩

/-- Summing a function over all column slices is summing it over all
stored entries. -/
theorem sum_over_entries (d : Data) (hv : AValid d) (h : ℕ → ℚ) :
    ∑ c ∈ Finset.range d.n, ∑ q ∈ Finset.Ico (d.A.p c) (d.A.p (c + 1)), h q =
      ∑ q ∈ Finset.range (d.A.p d.n), h q := by
  have main : ∀ k, k ≤ d.n →
      ∑ c ∈ Finset.range k, ∑ q ∈ Finset.Ico (d.A.p c) (d.A.p (c + 1)), h q =
        ∑ q ∈ Finset.Ico (d.A.p 0) (d.A.p k), h q := by
    intro k
    induction k with
    | zero => simp
    | succ k ih =>
      intro hk
      rw [Finset.sum_range_succ, ih (by omega),
        Finset.sum_Ico_consecutive h
          (Ap_mono d hv (Nat.zero_le k) (by omega))
          (hv.2.1 k (by omega))]
  rw [main d.n le_rfl, hv.1, ← Finset.range_eq_Ico]

/-- `accumByAtrans` adds the mathematical `Aᵀ x` to the output. -/
theorem accumByAtrans_eval (d : Data) (pr : Priv) (hv : AValid d) (x y : Vec)
    {j : ℕ} (hj : j < d.n) :
    accumByAtrans d pr x y j =
      y j + ∑ r ∈ Finset.range d.m, Aentry d r j * x r := by
  unfold accumByAtrans _accumByAtrans
  rw [if_pos hj]
  congr 1
  have key : ∑ r ∈ Finset.range d.m, Aentry d r j * x r =
      ∑ q ∈ Finset.Ico (d.A.p j) (d.A.p (j + 1)), d.A.x q * x (d.A.i q) := by
    unfold Aentry cscEntry
    calc ∑ r ∈ Finset.range d.m,
          (∑ q ∈ Finset.Ico (d.A.p j) (d.A.p (j + 1)),
            if d.A.i q = r then d.A.x q else 0) * x r
        = ∑ r ∈ Finset.range d.m,
            ∑ q ∈ Finset.Ico (d.A.p j) (d.A.p (j + 1)),
              (if d.A.i q = r then d.A.x q * x r else 0) := by
          refine Finset.sum_congr rfl fun r _ => ?_
          rw [Finset.sum_mul]
          refine Finset.sum_congr rfl fun q _ => ?_
          by_cases h : d.A.i q = r
          · rw [if_pos h, if_pos h]
          · rw [if_neg h, if_neg h, zero_mul]
      _ = ∑ q ∈ Finset.Ico (d.A.p j) (d.A.p (j + 1)),
            ∑ r ∈ Finset.range d.m,
              (if d.A.i q = r then d.A.x q * x r else 0) := Finset.sum_comm
      _ = ∑ q ∈ Finset.Ico (d.A.p j) (d.A.p (j + 1)), d.A.x q * x (d.A.i q) := by
          refine Finset.sum_congr rfl fun q hq => ?_
          have hqn : q < d.A.p d.n := by
            have := (Finset.mem_Ico.mp hq).2
            exact lt_of_lt_of_le this
              (Ap_mono d hv (Nat.succ_le_of_lt hj) le_rfl)
          rw [Finset.sum_ite_eq (Finset.range d.m) (d.A.i q)
            (fun r => d.A.x q * x r),
            if_pos (Finset.mem_range.mpr (hv.2.2 q hqn))]
  exact key.symm

/-- `accumByA`, which runs the CSC kernel over the cached transpose built
by `transpose`, adds the mathematical `A x` to the output. -/
theorem accumByA_eval (d : Data) (pr0 : Priv) (hv : AValid d) (x y : Vec)
    {r : ℕ} (hr : r < d.m) :
    accumByA d (transpose d pr0) x y r =
      y r + ∑ c ∈ Finset.range d.n, Aentry d r c * x c := by
  have hTp : (transpose d pr0).Atp = cs_cumsum (rowCounts d) d.m := rfl
  unfold accumByA _accumByAtrans
  rw [if_pos hr]
  congr 1
  have hinj : ∀ a ∈ (Finset.range (d.A.p d.n)).filter (fun q => d.A.i q = r),
      ∀ b ∈ (Finset.range (d.A.p d.n)).filter (fun q => d.A.i q = r),
      slot d a = slot d b → a = b := fun a ha b hb h =>
    slot_inj d hv (Finset.mem_range.mp (Finset.mem_filter.mp ha).1)
      (Finset.mem_range.mp (Finset.mem_filter.mp hb).1) h
  have himg : Finset.image (slot d)
        ((Finset.range (d.A.p d.n)).filter (fun q => d.A.i q = r)) =
      Finset.Ico ((transpose d pr0).Atp r) ((transpose d pr0).Atp (r + 1)) := by
    apply Finset.eq_of_subset_of_card_le
    · intro s hs
      obtain ⟨q, hq, rfl⟩ := Finset.mem_image.mp hs
      obtain ⟨hqn, hqr⟩ := Finset.mem_filter.mp hq
      have hqn' : q < d.A.p d.n := Finset.mem_range.mp hqn
      refine Finset.mem_Ico.mpr ⟨?_, ?_⟩
      · rw [hTp, ← hqr]
        exact block_start_le_slot d q
      · rw [hTp, ← hqr]
        exact slot_lt_block_end d hv hqn'
    · rw [Finset.card_image_of_injOn hinj, Nat.card_Ico, hTp,
        cs_cumsum_succ _ _ _ hr, Nat.add_sub_cancel_left]
      exact le_rfl
  rw [← himg, Finset.sum_image hinj]
  calc ∑ q ∈ (Finset.range (d.A.p d.n)).filter (fun q => d.A.i q = r),
        (transpose d pr0).Atx (slot d q) * x ((transpose d pr0).Ati (slot d q))
      = ∑ q ∈ (Finset.range (d.A.p d.n)).filter (fun q => d.A.i q = r),
          d.A.x q * x (col d q) := by
        refine Finset.sum_congr rfl fun q hq => ?_
        have hqn : q < d.A.p d.n :=
          Finset.mem_range.mp (Finset.mem_filter.mp hq).1
        rw [(transpose_entry d pr0 hv hqn).1, (transpose_entry d pr0 hv hqn).2]
    _ = ∑ q ∈ Finset.range (d.A.p d.n),
          (if d.A.i q = r then d.A.x q * x (col d q) else 0) :=
        Finset.sum_filter _ _
    _ = ∑ c ∈ Finset.range d.n,
          ∑ q ∈ Finset.Ico (d.A.p c) (d.A.p (c + 1)),
            (if d.A.i q = r then d.A.x q * x (col d q) else 0) :=
        (sum_over_entries d hv _).symm
    _ = ∑ c ∈ Finset.range d.n, Aentry d r c * x c := by
        refine Finset.sum_congr rfl fun c hc => ?_
        have hcn : c < d.n := Finset.mem_range.mp hc
        unfold Aentry cscEntry
        rw [Finset.sum_mul]
        refine Finset.sum_congr rfl fun q hq => ?_
        obtain ⟨hq1, hq2⟩ := Finset.mem_Ico.mp hq
        have hcolq : col d q = c := col_eq d hv hcn hq1 hq2
        by_cases h : d.A.i q = r
        · rw [if_pos h, if_pos h, hcolq]
        · rw [if_neg h, if_neg h, zero_mul]

/-- The pointwise value of `matVec` with the cached transpose: coordinate
`i < n` of `ρ·x + Aᵀ(A x)`. -/
theorem matVec_eval (d : Data) (pr0 : Priv) (hv : AValid d) (x y : Vec) :
    ∀ i < d.n,
      matVec d (transpose d pr0) x y i =
        d.RHO_X * x i +
          ∑ r ∈ Finset.range d.m,
            Aentry d r i * (∑ c ∈ Finset.range d.n, Aentry d r c * x c) := by
  intro i hi
  unfold matVec
  show addScaledArray _ x d.n d.RHO_X i = _
  rw [addScaledArray, if_pos hi]
  rw [accumByAtrans_eval d (transpose d pr0) hv _ _ hi]
  rw [memset0, if_pos hi, zero_add]
  rw [Finset.sum_congr rfl fun r hr => by
    rw [accumByA_eval d pr0 hv x _ (Finset.mem_range.mp hr),
      memset0, if_pos (Finset.mem_range.mp hr), zero_add]]
  ring

/-- C4: `matVec` applied with the cached transpose computes exactly
`y = ρ·x + Aᵀ(A x)` on every coordinate `i < n` (zeroing the m-length
scratch, accumulating `A·x` into it, zeroing the output, accumulating
`Aᵀ·scratch`, then adding `ρ·x`); in particular it maps the zero vector to
the zero vector exactly. -/
theorem matVec_correct (d : Data) (pr0 : Priv) (hv : AValid d) (x y : Vec) :
    (∀ i < d.n,
      matVec d (transpose d pr0) x y i =
        d.RHO_X * x i +
          ∑ r ∈ Finset.range d.m,
            Aentry d r i * (∑ c ∈ Finset.range d.n, Aentry d r c * x c)) ∧
    (∀ i < d.n, matVec d (transpose d pr0) (fun _ => 0) y i = 0) := by
  refine ⟨matVec_eval d pr0 hv x y, fun i hi => ?_⟩
  rw [matVec_eval d pr0 hv (fun _ => 0) y i hi]
  simp

/-- C4 witness: the operator statement applied to the concrete 2×2
identity matrix. -/
theorem matVec_correct_witness :
    AValid id2Data ∧
    ((∀ i < id2Data.n,
      matVec id2Data (transpose id2Data junkPriv) (fun _ => 1) (fun _ => 0) i =
        id2Data.RHO_X * 1 +
          ∑ r ∈ Finset.range id2Data.m,
            Aentry id2Data r i *
              (∑ c ∈ Finset.range id2Data.n, Aentry id2Data r c * 1)) ∧
      (∀ i < id2Data.n,
        matVec id2Data (transpose id2Data junkPriv) (fun _ => 0)
          (fun _ => 0) i = 0)) :=
  ⟨id2Valid, matVec_correct id2Data junkPriv id2Valid (fun _ => 1) (fun _ => 0)⟩

/-! ## C7 — warm start at the exact solution -/

/-- A vector that vanishes below `n` has zero squared norm. -/
theorem calcNormSq_eq_zero (v : Vec) (n : ℕ) (h : ∀ i < n, v i = 0) :
    calcNormSq v n = 0 := by
  unfold calcNormSq innerProd
  exact Finset.sum_eq_zero fun i hi => by
    rw [h i (Finset.mem_range.mp hi), zero_mul]

/-- Preconditioning a zero residual yields `ipzr = 0`. -/
theorem applyPreConditioner_ipzr_zero (M z r : Vec) (n : ℕ)
    (h : ∀ i < n, r i = 0) : (applyPreConditioner M z r n).2 = 0 := by
  show (∑ i ∈ Finset.range n, (if i < n then r i * M i else z i) * r i) = 0
  exact Finset.sum_eq_zero fun i hi => by
    rw [h i (Finset.mem_range.mp hi), mul_zero]

/-! ## C1 — PCG convergence within the dimension-sized budget

The development below reconstructs, over the exact rationals, the classical
finite-termination theory of preconditioned conjugate gradients for the
operator `ρI + AᵀA` (symmetric positive definite whenever `ρ > 0`): the
residuals produced by successive loop iterations are pairwise orthogonal in
the `M`-weighted inner product, so at most `n` of them can be nonzero, and
the residual test must fire within `n` iterations. -/

/-- The `pcg` loop for one more unit of fuel, phrased through `pcgStep`. -/
theorem pcgLoop_succ_eq (d : Data) (pr : Priv) (tol : ℚ) (fuel : ℕ)
    (st : CGState) :
    pcgLoop d pr tol (fuel + 1) st.x st.r st.p st.z st.ipzr =
      if calcNormSq (pcgStep d pr st).r d.n < tol ^ 2
      then (1, (pcgStep d pr st).x)
      else ((pcgLoop d pr tol fuel (pcgStep d pr st).x (pcgStep d pr st).r
          (pcgStep d pr st).p (pcgStep d pr st).z (pcgStep d pr st).ipzr).1 + 1,
        (pcgLoop d pr tol fuel (pcgStep d pr st).x (pcgStep d pr st).r
          (pcgStep d pr st).p (pcgStep d pr st).z (pcgStep d pr st).ipzr).2) :=
  rfl

/-- `pcg` is the loop started from the initialization state. -/
theorem pcg_eq_pcgLoop (d : Data) (pr : Priv) (s : Option Vec) (b : Vec)
    (max_its : ℕ) (tol : ℚ) :
    pcg d pr s b max_its tol =
      pcgLoop d pr tol max_its (pcgInit d pr s b).x (pcgInit d pr s b).r
        (pcgInit d pr s b).p (pcgInit d pr s b).z (pcgInit d pr s b).ipzr := by
  cases s <;> rfl

/-- Restarting the iteration after one step shifts the index. -/
theorem cgIter_shift (d : Data) (pr : Priv) (st0 : CGState) (k : ℕ) :
    cgIter d pr (pcgStep d pr st0) k = cgIter d pr st0 (k + 1) := by
  induction k with
  | zero => rfl
  | succ k ih =>
    show pcgStep d pr (cgIter d pr (pcgStep d pr st0) k) = _
    rw [ih]
    rfl

/-- The loop never reports more iterations than its fuel. -/
theorem pcgLoop_count_le (d : Data) (pr : Priv) (tol : ℚ) :
    ∀ (fuel : ℕ) (x r p z : Vec) (ipzr : ℚ),
      (pcgLoop d pr tol fuel x r p z ipzr).1 ≤ fuel := by
  intro fuel
  induction fuel with
  | zero => intro x r p z ipzr; exact le_rfl
  | succ fuel ih =>
    intro x r p z ipzr
    show (pcgLoop d pr tol (fuel + 1) x r p z ipzr).1 ≤ fuel + 1
    rw [show pcgLoop d pr tol (fuel + 1) x r p z ipzr =
        pcgLoop d pr tol (fuel + 1) (CGState.mk x r p z ipzr).x
          (CGState.mk x r p z ipzr).r (CGState.mk x r p z ipzr).p
          (CGState.mk x r p z ipzr).z (CGState.mk x r p z ipzr).ipzr from rfl,
      pcgLoop_succ_eq]
    split
    · exact Nat.one_le_iff_ne_zero.mpr (Nat.succ_ne_zero fuel)
    · exact Nat.succ_le_succ (ih _ _ _ _ _)

/-- `pcg` never reports more iterations than its budget. -/
theorem pcg_count_le (d : Data) (pr : Priv) (s : Option Vec) (b : Vec)
    (max_its : ℕ) (tol : ℚ) :
    (pcg d pr s b max_its tol).1 ≤ max_its := by
  rw [pcg_eq_pcgLoop]
  exact pcgLoop_count_le d pr tol max_its _ _ _ _ _

/-- If the residual test fails throughout, the loop exhausts its fuel and
returns the fuel count together with the iterate after `fuel` steps. -/
theorem pcgLoop_run_no_exit (d : Data) (pr : Priv) (tol : ℚ) :
    ∀ (fuel : ℕ) (st0 : CGState),
      (∀ k < fuel, tol ^ 2 ≤ calcNormSq (cgIter d pr st0 (k + 1)).r d.n) →
      pcgLoop d pr tol fuel st0.x st0.r st0.p st0.z st0.ipzr =
        (fuel, (cgIter d pr st0 fuel).x) := by
  intro fuel
  induction fuel with
  | zero => intro st0 _; rfl
  | succ fuel ih =>
    intro st0 hfail
    rw [pcgLoop_succ_eq]
    have h0 : tol ^ 2 ≤ calcNormSq (pcgStep d pr st0).r d.n := by
      have := hfail 0 (Nat.succ_pos fuel)
      exact this
    rw [if_neg (not_lt.mpr h0)]
    have hrec := ih (pcgStep d pr st0) (fun k hk => by
      have := hfail (k + 1) (Nat.succ_lt_succ hk)
      rw [cgIter_shift]
      exact this)
    rw [hrec, cgIter_shift]

/-- If the residual test first fires after iteration `K < fuel`, the loop
returns `K + 1` and the iterate after `K + 1` steps. -/
theorem pcgLoop_run_exit (d : Data) (pr : Priv) (tol : ℚ) :
    ∀ (fuel K : ℕ) (st0 : CGState), K < fuel →
      (∀ k < K, tol ^ 2 ≤ calcNormSq (cgIter d pr st0 (k + 1)).r d.n) →
      calcNormSq (cgIter d pr st0 (K + 1)).r d.n < tol ^ 2 →
      pcgLoop d pr tol fuel st0.x st0.r st0.p st0.z st0.ipzr =
        (K + 1, (cgIter d pr st0 (K + 1)).x) := by
  intro fuel
  induction fuel with
  | zero => intro K st0 hK; exact absurd hK (Nat.not_lt_zero K)
  | succ fuel ih =>
    intro K st0 hK hfail hexit
    rw [pcgLoop_succ_eq]
    cases K with
    | zero =>
      have hexit1 : calcNormSq (pcgStep d pr st0).r d.n < tol ^ 2 := hexit
      rw [if_pos hexit1]
      rfl
    | succ K =>
      have h0 : tol ^ 2 ≤ calcNormSq (pcgStep d pr st0).r d.n :=
        hfail 0 (Nat.succ_pos K)
      rw [if_neg (not_lt.mpr h0)]
      have hrec := ih K (pcgStep d pr st0) (Nat.lt_of_succ_lt_succ hK)
        (fun k hk => by
          rw [cgIter_shift]
          exact hfail (k + 1) (Nat.succ_lt_succ hk))
        (by rw [cgIter_shift]; exact hexit)
      rw [hrec, cgIter_shift]

/-! ### Inner-product and operator algebra -/

theorem innerProd_comm (x y : Vec) (n : ℕ) :
    innerProd x y n = innerProd y x n :=
  Finset.sum_congr rfl fun _ _ => mul_comm _ _

theorem innerProd_addScaled_left (u v w : Vec) (n : ℕ) (c : ℚ) :
    innerProd (addScaledArray u v n c) w n =
      innerProd u w n + c * innerProd v w n := by
  unfold innerProd addScaledArray
  rw [Finset.mul_sum, ← Finset.sum_add_distrib]
  refine Finset.sum_congr rfl fun i hi => ?_
  rw [if_pos (Finset.mem_range.mp hi)]
  ring

theorem innerProd_addScaled_right (u v w : Vec) (n : ℕ) (c : ℚ) :
    innerProd w (addScaledArray u v n c) n =
      innerProd w u n + c * innerProd w v n := by
  rw [innerProd_comm, innerProd_addScaled_left, innerProd_comm u w,
    innerProd_comm v w]

theorem innerProd_congr_left (u u' w : Vec) (n : ℕ)
    (h : ∀ i < n, u i = u' i) : innerProd u w n = innerProd u' w n :=
  Finset.sum_congr rfl fun i hi => by rw [h i (Finset.mem_range.mp hi)]

theorem innerProd_congr_right (u w w' : Vec) (n : ℕ)
    (h : ∀ i < n, w i = w' i) : innerProd u w n = innerProd u w' n :=
  Finset.sum_congr rfl fun i hi => by rw [h i (Finset.mem_range.mp hi)]

theorem innerProd_zero_right (u w : Vec) (n : ℕ) (h : ∀ i < n, w i = 0) :
    innerProd u w n = 0 :=
  Finset.sum_eq_zero fun i hi => by
    rw [h i (Finset.mem_range.mp hi), mul_zero]

theorem Mip_comm (M : Vec) (n : ℕ) (x y : Vec) : Mip M n x y = Mip M n y x :=
  Finset.sum_congr rfl fun i _ => by ring

/-- An inner product against a vector that is `M ⊙ r` below `n` is the
`M`-weighted inner product with `r`. -/
theorem innerProd_with_Mz (w r M z : Vec) (n : ℕ)
    (hz : ∀ i < n, z i = r i * M i) : innerProd w z n = Mip M n r w := by
  unfold innerProd Mip
  refine Finset.sum_congr rfl fun i hi => ?_
  rw [hz i (Finset.mem_range.mp hi)]
  ring

theorem Mip_pos (M : Vec) (n : ℕ) (r : Vec) (hM : ∀ i < n, 0 < M i)
    (hr : ∃ i, i < n ∧ r i ≠ 0) : 0 < Mip M n r r := by
  obtain ⟨i0, hi0, hr0⟩ := hr
  unfold Mip
  apply Finset.sum_pos'
  · intro i hi
    rw [mul_assoc]
    exact mul_nonneg (le_of_lt (hM i (Finset.mem_range.mp hi)))
      (mul_self_nonneg _)
  · refine ⟨i0, Finset.mem_range.mpr hi0, ?_⟩
    rw [mul_assoc]
    exact mul_pos (hM i0 hi0) (mul_self_pos.mpr hr0)

theorem Lop_congr (d : Data) (x x' : Vec) (h : ∀ i < d.n, x i = x' i) :
    ∀ i < d.n, Lop d x i = Lop d x' i := by
  intro i hi
  unfold Lop
  rw [h i hi]
  congr 1
  refine Finset.sum_congr rfl fun r _ => ?_
  congr 1
  refine Finset.sum_congr rfl fun c hc => ?_
  rw [h c (Finset.mem_range.mp hc)]

theorem Lop_addScaled (d : Data) (u v : Vec) (c : ℚ) :
    ∀ i < d.n,
      Lop d (addScaledArray u v d.n c) i = Lop d u i + c * Lop d v i := by
  intro i hi
  unfold Lop addScaledArray
  rw [if_pos hi]
  have hsum : ∀ r, (∑ cc ∈ Finset.range d.n,
      Aentry d r cc * (if cc < d.n then u cc + c * v cc else u cc)) =
      (∑ cc ∈ Finset.range d.n, Aentry d r cc * u cc) +
        c * (∑ cc ∈ Finset.range d.n, Aentry d r cc * v cc) := by
    intro r
    rw [Finset.mul_sum, ← Finset.sum_add_distrib]
    refine Finset.sum_congr rfl fun cc hcc => ?_
    rw [if_pos (Finset.mem_range.mp hcc)]
    ring
  have hmain : (∑ r ∈ Finset.range d.m, Aentry d r i *
        (∑ cc ∈ Finset.range d.n,
          Aentry d r cc * (if cc < d.n then u cc + c * v cc else u cc))) =
      (∑ r ∈ Finset.range d.m,
        Aentry d r i * (∑ cc ∈ Finset.range d.n, Aentry d r cc * u cc)) +
        c * (∑ r ∈ Finset.range d.m,
          Aentry d r i * (∑ cc ∈ Finset.range d.n, Aentry d r cc * v cc)) := by
    rw [Finset.mul_sum, ← Finset.sum_add_distrib]
    refine Finset.sum_congr rfl fun r _ => ?_
    rw [hsum r]
    ring
  rw [hmain]
  ring

/-- The quadratic expansion of `⟨Lop u, w⟩`: the `ρ`-term plus one product
of column sums per row. -/
theorem Lop_inner_expand (d : Data) (u w : Vec) :
    innerProd (Lop d u) w d.n =
      d.RHO_X * innerProd u w d.n +
        ∑ r ∈ Finset.range d.m,
          (∑ c ∈ Finset.range d.n, Aentry d r c * u c) *
            (∑ i ∈ Finset.range d.n, Aentry d r i * w i) := by
  unfold innerProd Lop
  calc ∑ i ∈ Finset.range d.n,
        (d.RHO_X * u i +
          ∑ r ∈ Finset.range d.m,
            Aentry d r i * (∑ c ∈ Finset.range d.n, Aentry d r c * u c)) * w i
      = ∑ i ∈ Finset.range d.n,
          (d.RHO_X * (u i * w i) +
            ∑ r ∈ Finset.range d.m,
              Aentry d r i * (∑ c ∈ Finset.range d.n, Aentry d r c * u c) * w i) := by
        refine Finset.sum_congr rfl fun i _ => ?_
        rw [add_mul, Finset.sum_mul, mul_assoc]
    _ = d.RHO_X * (∑ i ∈ Finset.range d.n, u i * w i) +
          ∑ i ∈ Finset.range d.n, ∑ r ∈ Finset.range d.m,
            Aentry d r i * (∑ c ∈ Finset.range d.n, Aentry d r c * u c) * w i := by
        rw [Finset.sum_add_distrib, Finset.mul_sum]
    _ = d.RHO_X * (∑ i ∈ Finset.range d.n, u i * w i) +
          ∑ r ∈ Finset.range d.m,
            (∑ c ∈ Finset.range d.n, Aentry d r c * u c) *
              (∑ i ∈ Finset.range d.n, Aentry d r i * w i) := by
        rw [Finset.sum_comm]
        congr 1
        refine Finset.sum_congr rfl fun r _ => ?_
        rw [Finset.mul_sum]
        refine Finset.sum_congr rfl fun i _ => ?_
        ring

/-- The implicit operator is symmetric on the truncated inner product. -/
theorem Lop_symm (d : Data) (x y : Vec) :
    innerProd (Lop d x) y d.n = innerProd x (Lop d y) d.n := by
  rw [Lop_inner_expand, innerProd_comm x (Lop d y), Lop_inner_expand]
  rw [innerProd_comm y x]
  congr 1
  exact Finset.sum_congr rfl fun r _ => mul_comm _ _

/-- The implicit operator is positive definite for `ρ > 0`. -/
theorem Lop_posdef (d : Data) (hRho : 0 < d.RHO_X) (x : Vec)
    (hx : ∃ i, i < d.n ∧ x i ≠ 0) : 0 < innerProd x (Lop d x) d.n := by
  rw [innerProd_comm, Lop_inner_expand]
  have hxx : 0 < innerProd x x d.n := by
    obtain ⟨i0, hi0, hx0⟩ := hx
    unfold innerProd
    apply Finset.sum_pos'
    · exact fun i _ => mul_self_nonneg _
    · exact ⟨i0, Finset.mem_range.mpr hi0, mul_self_pos.mpr hx0⟩
  apply add_pos_of_pos_of_nonneg (mul_pos hRho hxx)
  exact Finset.sum_nonneg fun r _ => mul_self_nonneg _

/-- On the preconditioned workspace, `matVec` computes `Lop` below `n`. -/
theorem matVec_getPre_eval (d : Data) (pr0 : Priv) (hv : AValid d)
    (x y : Vec) :
    ∀ i < d.n,
      matVec d (getPreconditioner d (transpose d pr0)) x y i = Lop d x i := by
  intro i hi
  have hsame : matVec d (getPreconditioner d (transpose d pr0)) x y =
      matVec d (transpose d pr0) x y := rfl
  rw [hsame, matVec_eval d pr0 hv x y i hi]
  rfl

theorem applyPreConditioner_fst (M z r : Vec) (n : ℕ) :
    ∀ i < n, (applyPreConditioner M z r n).1 i = r i * M i := by
  intro i hi
  show (if i < n then r i * M i else z i) = r i * M i
  rw [if_pos hi]

theorem applyPreConditioner_snd (M z r : Vec) (n : ℕ) :
    (applyPreConditioner M z r n).2 = Mip M n r r := by
  show (∑ i ∈ Finset.range n, (if i < n then r i * M i else z i) * r i) = _
  unfold Mip
  refine Finset.sum_congr rfl fun i hi => ?_
  rw [if_pos (Finset.mem_range.mp hi)]
  ring

/-- The diagonal preconditioner built by `getPreconditioner` is positive
for `ρ > 0`. -/
theorem getPreconditioner_M_pos (d : Data) (pr : Priv) (hRho : 0 < d.RHO_X) :
    ∀ j < d.n, 0 < (getPreconditioner d pr).M j := by
  intro j hj
  show (0 : ℚ) < (if j < d.n then _ else _)
  rw [if_pos hj]
  have hnn : (0 : ℚ) ≤ calcNormSq (fun k => d.A.x (d.A.p j + k))
      (d.A.p (j + 1) - d.A.p j) := by
    unfold calcNormSq innerProd
    exact Finset.sum_nonneg fun q _ => mul_self_nonneg _
  have : (0 : ℚ) < d.RHO_X + calcNormSq (fun k => d.A.x (d.A.p j + k))
      (d.A.p (j + 1) - d.A.p j) := by linarith
  exact one_div_pos.mpr this

/-! ### Step evaluation over the preconditioned workspace -/

/-- The loop's step-size denominator is `⟨p, L p⟩`. -/
theorem cgDenom_eq (d : Data) (pr0 : Priv) (hv : AValid d) (st : CGState) :
    innerProd st.p
        (matVec d (getPreconditioner d (transpose d pr0)) st.p
          (getPreconditioner d (transpose d pr0)).Ap) d.n =
      innerProd st.p (Lop d st.p) d.n :=
  innerProd_congr_right _ _ _ _ (matVec_getPre_eval d pr0 hv st.p _)

theorem pcgStep_x_eval (d : Data) (pr0 : Priv) (hv : AValid d)
    (st : CGState) :
    ∀ i < d.n,
      (pcgStep d (getPreconditioner d (transpose d pr0)) st).x i =
        st.x i + cgAlpha d st * st.p i := by
  intro i hi
  show (if i < d.n then st.x i + _ * st.p i else st.x i) = _
  rw [if_pos hi, cgAlpha, ← cgDenom_eq d pr0 hv st]

theorem pcgStep_r_eval (d : Data) (pr0 : Priv) (hv : AValid d)
    (st : CGState) :
    ∀ i < d.n,
      (pcgStep d (getPreconditioner d (transpose d pr0)) st).r i =
        st.r i - cgAlpha d st * Lop d st.p i := by
  intro i hi
  show (if i < d.n then st.r i + _ * _ else st.r i) = _
  rw [if_pos hi, matVec_getPre_eval d pr0 hv st.p _ i hi, cgAlpha,
    ← cgDenom_eq d pr0 hv st]
  ring

theorem pcgStep_z_eval (d : Data) (pr : Priv) (st : CGState) :
    ∀ i < d.n,
      (pcgStep d pr st).z i = (pcgStep d pr st).r i * pr.M i :=
  fun i hi => applyPreConditioner_fst pr.M st.z _ d.n i hi

theorem pcgStep_ipzr_eval (d : Data) (pr : Priv) (st : CGState) :
    (pcgStep d pr st).ipzr =
      Mip pr.M d.n (pcgStep d pr st).r (pcgStep d pr st).r :=
  applyPreConditioner_snd pr.M st.z _ d.n

theorem pcgStep_p_eval (d : Data) (pr : Priv) (st : CGState) :
    ∀ i < d.n,
      (pcgStep d pr st).p i =
        ((pcgStep d pr st).ipzr / st.ipzr) * st.p i +
          (pcgStep d pr st).z i := by
  intro i hi
  show (if i < d.n then (if i < d.n then _ * st.p i else st.p i) + 1 * _
      else _) = _
  rw [if_pos hi, if_pos hi, one_mul]
  rfl

/-- Residual tracking: throughout the loop, `r = b − L x` exactly (below
`n`), provided it holds at the initial state. -/
theorem cg_residual_track (d : Data) (pr0 : Priv) (hv : AValid d)
    (st0 : CGState) (b : Vec)
    (hres0 : ∀ i < d.n, st0.r i = b i - Lop d st0.x i) :
    ∀ k, ∀ i < d.n,
      (cgIter d (getPreconditioner d (transpose d pr0)) st0 k).r i =
        b i -
          Lop d (cgIter d (getPreconditioner d (transpose d pr0)) st0 k).x i := by
  intro k
  induction k with
  | zero => exact hres0
  | succ k ih =>
    intro i hi
    have hx := pcgStep_x_eval d pr0 hv
      (cgIter d (getPreconditioner d (transpose d pr0)) st0 k)
    have hLx : Lop d
        (cgIter d (getPreconditioner d (transpose d pr0)) st0 (k + 1)).x i =
        Lop d (cgIter d (getPreconditioner d (transpose d pr0)) st0 k).x i +
          cgAlpha d (cgIter d (getPreconditioner d (transpose d pr0)) st0 k) *
            Lop d (cgIter d (getPreconditioner d (transpose d pr0)) st0 k).p i := by
      have hcongr := Lop_congr d
        (cgIter d (getPreconditioner d (transpose d pr0)) st0 (k + 1)).x
        (addScaledArray
          (cgIter d (getPreconditioner d (transpose d pr0)) st0 k).x
          (cgIter d (getPreconditioner d (transpose d pr0)) st0 k).p d.n
          (cgAlpha d (cgIter d (getPreconditioner d (transpose d pr0)) st0 k)))
        (fun j hj => by
          rw [show (cgIter d (getPreconditioner d (transpose d pr0)) st0
              (k + 1)).x =
            (pcgStep d (getPreconditioner d (transpose d pr0))
              (cgIter d (getPreconditioner d (transpose d pr0)) st0 k)).x
            from rfl, hx j hj]
          show _ = (if j < d.n then _ + _ * _ else _)
          rw [if_pos hj]) i hi
      rw [hcongr,
        Lop_addScaled d
          (cgIter d (getPreconditioner d (transpose d pr0)) st0 k).x
          (cgIter d (getPreconditioner d (transpose d pr0)) st0 k).p
          (cgAlpha d (cgIter d (getPreconditioner d (transpose d pr0)) st0 k))
          i hi]
    have hr := pcgStep_r_eval d pr0 hv
      (cgIter d (getPreconditioner d (transpose d pr0)) st0 k) i hi
    rw [show (cgIter d (getPreconditioner d (transpose d pr0)) st0
        (k + 1)).r =
      (pcgStep d (getPreconditioner d (transpose d pr0))
        (cgIter d (getPreconditioner d (transpose d pr0)) st0 k)).r
      from rfl, hr, hLx, ih i hi]
    ring

/-! ### Pointwise combinations under the truncated inner product -/

theorem innerProd_sub_mul_right (w u v : Vec) (n : ℕ) (c : ℚ) :
    innerProd w (fun i => u i - c * v i) n =
      innerProd w u n - c * innerProd w v n := by
  unfold innerProd
  rw [Finset.mul_sum, ← Finset.sum_sub_distrib]
  exact Finset.sum_congr rfl fun i _ => by ring

theorem innerProd_sub_mul_left (u v w : Vec) (n : ℕ) (c : ℚ) :
    innerProd (fun i => u i - c * v i) w n =
      innerProd u w n - c * innerProd v w n := by
  unfold innerProd
  rw [Finset.mul_sum, ← Finset.sum_sub_distrib]
  exact Finset.sum_congr rfl fun i _ => by ring

theorem innerProd_mul_add_right (w u v : Vec) (n : ℕ) (c : ℚ) :
    innerProd w (fun i => c * u i + v i) n =
      c * innerProd w u n + innerProd w v n := by
  unfold innerProd
  rw [Finset.mul_sum, ← Finset.sum_add_distrib]
  exact Finset.sum_congr rfl fun i _ => by ring

theorem innerProd_mul_add_left (u v w : Vec) (n : ℕ) (c : ℚ) :
    innerProd (fun i => c * u i + v i) w n =
      c * innerProd u w n + innerProd v w n := by
  unfold innerProd
  rw [Finset.mul_sum, ← Finset.sum_add_distrib]
  exact Finset.sum_congr rfl fun i _ => by ring

/-! ### Step evaluation over an abstract preconditioned workspace -/

theorem pcgStep_x_evalA (d : Data) (pr : Priv)
    (hL : ∀ x y : Vec, ∀ i < d.n, matVec d pr x y i = Lop d x i)
    (st : CGState) :
    ∀ i < d.n, (pcgStep d pr st).x i = st.x i + cgAlpha d st * st.p i := by
  intro i hi
  have hden : innerProd st.p (matVec d pr st.p pr.Ap) d.n =
      innerProd st.p (Lop d st.p) d.n :=
    innerProd_congr_right _ _ _ _ (hL st.p pr.Ap)
  show (if i < d.n then st.x i + _ * st.p i else st.x i) = _
  rw [if_pos hi, hden, cgAlpha]

theorem pcgStep_r_evalA (d : Data) (pr : Priv)
    (hL : ∀ x y : Vec, ∀ i < d.n, matVec d pr x y i = Lop d x i)
    (st : CGState) :
    ∀ i < d.n,
      (pcgStep d pr st).r i = st.r i - cgAlpha d st * Lop d st.p i := by
  intro i hi
  have hden : innerProd st.p (matVec d pr st.p pr.Ap) d.n =
      innerProd st.p (Lop d st.p) d.n :=
    innerProd_congr_right _ _ _ _ (hL st.p pr.Ap)
  show (if i < d.n then st.r i + _ * _ else st.r i) = _
  rw [if_pos hi, hL st.p pr.Ap i hi, hden, cgAlpha]
  ring

/-! ### Structure of the iterated states -/

theorem cg_z_eval (d : Data) (pr : Priv) (st0 : CGState)
    (hZ0 : ∀ i < d.n, st0.z i = st0.r i * pr.M i) :
    ∀ k, ∀ i < d.n,
      (cgIter d pr st0 k).z i = (cgIter d pr st0 k).r i * pr.M i := by
  intro k
  cases k with
  | zero => exact hZ0
  | succ k => exact pcgStep_z_eval d pr (cgIter d pr st0 k)

theorem cg_ipzr_eval (d : Data) (pr : Priv) (st0 : CGState)
    (hIP0 : st0.ipzr = Mip pr.M d.n st0.r st0.r) :
    ∀ k, (cgIter d pr st0 k).ipzr =
      Mip pr.M d.n (cgIter d pr st0 k).r (cgIter d pr st0 k).r := by
  intro k
  cases k with
  | zero => exact hIP0
  | succ k => exact pcgStep_ipzr_eval d pr (cgIter d pr st0 k)

theorem cg_p_succ_eval (d : Data) (pr : Priv) (st0 : CGState) :
    ∀ k, ∀ i < d.n,
      (cgIter d pr st0 (k + 1)).p i =
        ((cgIter d pr st0 (k + 1)).ipzr / (cgIter d pr st0 k).ipzr) *
            (cgIter d pr st0 k).p i +
          (cgIter d pr st0 (k + 1)).z i :=
  fun k => pcgStep_p_eval d pr (cgIter d pr st0 k)

/-! ### The classical PCG orthogonality invariants -/

/-- The orthogonality package of preconditioned conjugate gradients, in
exact arithmetic: as long as the residuals seen so far are nonzero,
(1) the residuals are pairwise orthogonal in the `M`-weighted inner
product, (2) the directions are pairwise `L`-conjugate, (3) each residual
is orthogonal to all previous directions, and (4) `⟨r, p⟩ = ipzr` at every
step. -/
theorem cg_orth (d : Data) (pr : Priv)
    (hL : ∀ x y : Vec, ∀ i < d.n, matVec d pr x y i = Lop d x i)
    (hM : ∀ i < d.n, 0 < pr.M i) (hRho : 0 < d.RHO_X) (st0 : CGState)
    (hZ0 : ∀ i < d.n, st0.z i = st0.r i * pr.M i)
    (hIP0 : st0.ipzr = Mip pr.M d.n st0.r st0.r)
    (hP0 : ∀ i < d.n, st0.p i = st0.z i) :
    ∀ K, (∀ j < K, ∃ i, i < d.n ∧ (cgIter d pr st0 j).r i ≠ 0) →
      (∀ j k, j < k → k ≤ K →
        Mip pr.M d.n (cgIter d pr st0 j).r (cgIter d pr st0 k).r = 0) ∧
      (∀ j k, j < k → k ≤ K →
        innerProd (cgIter d pr st0 k).p (Lop d (cgIter d pr st0 j).p) d.n = 0) ∧
      (∀ j k, j < k → k ≤ K →
        innerProd (cgIter d pr st0 k).r (cgIter d pr st0 j).p d.n = 0) ∧
      (∀ k, k ≤ K →
        innerProd (cgIter d pr st0 k).r (cgIter d pr st0 k).p d.n =
          (cgIter d pr st0 k).ipzr) := by
  intro K
  induction K with
  | zero =>
    intro _
    refine ⟨?_, ?_, ?_, ?_⟩
    · intro j k hjk hk
      exact absurd (lt_of_lt_of_le hjk hk) (Nat.not_lt_zero j)
    · intro j k hjk hk
      exact absurd (lt_of_lt_of_le hjk hk) (Nat.not_lt_zero j)
    · intro j k hjk hk
      exact absurd (lt_of_lt_of_le hjk hk) (Nat.not_lt_zero j)
    · intro k hk
      have hk0 : k = 0 := Nat.le_zero.mp hk
      subst hk0
      show innerProd st0.r st0.p d.n = st0.ipzr
      rw [innerProd_congr_right _ _ st0.z d.n hP0,
        innerProd_with_Mz st0.r st0.r pr.M st0.z d.n hZ0, hIP0]
  | succ K ih =>
    intro hnz
    obtain ⟨ihc, ihd, ihf, ihe⟩ :=
      ih (fun j hj => hnz j (lt_trans hj (Nat.lt_succ_self K)))
    have hIPpos : ∀ j ≤ K, 0 < (cgIter d pr st0 j).ipzr := by
      intro j hj
      rw [cg_ipzr_eval d pr st0 hIP0 j]
      exact Mip_pos pr.M d.n _ hM (hnz j (Nat.lt_succ_of_le hj))
    have hPne : ∀ j ≤ K, ∃ i, i < d.n ∧ (cgIter d pr st0 j).p i ≠ 0 := by
      intro j hj
      by_contra hall
      push_neg at hall
      have hz : innerProd (cgIter d pr st0 j).r (cgIter d pr st0 j).p d.n = 0 :=
        innerProd_zero_right _ _ d.n hall
      rw [ihe j hj] at hz
      exact absurd hz (ne_of_gt (hIPpos j hj))
    have hDpos : ∀ j ≤ K,
        0 < innerProd (cgIter d pr st0 j).p (Lop d (cgIter d pr st0 j).p) d.n :=
      fun j hj => Lop_posdef d hRho _ (hPne j hj)
    have hApos : ∀ j ≤ K, 0 < cgAlpha d (cgIter d pr st0 j) :=
      fun j hj => div_pos (hIPpos j hj) (hDpos j hj)
    have hRright : ∀ (t : ℕ) (w : Vec),
        innerProd w (cgIter d pr st0 (t + 1)).r d.n =
          innerProd w (cgIter d pr st0 t).r d.n -
            cgAlpha d (cgIter d pr st0 t) *
              innerProd w (Lop d (cgIter d pr st0 t).p) d.n := by
      intro t w
      calc innerProd w (cgIter d pr st0 (t + 1)).r d.n
          = innerProd w (fun i => (cgIter d pr st0 t).r i -
              cgAlpha d (cgIter d pr st0 t) *
                Lop d (cgIter d pr st0 t).p i) d.n :=
            innerProd_congr_right _ _ _ d.n
              (fun i hi => pcgStep_r_evalA d pr hL (cgIter d pr st0 t) i hi)
        _ = _ := innerProd_sub_mul_right _ _ _ d.n _
    have hRleft : ∀ (t : ℕ) (w : Vec),
        innerProd (cgIter d pr st0 (t + 1)).r w d.n =
          innerProd (cgIter d pr st0 t).r w d.n -
            cgAlpha d (cgIter d pr st0 t) *
              innerProd (Lop d (cgIter d pr st0 t).p) w d.n := by
      intro t w
      calc innerProd (cgIter d pr st0 (t + 1)).r w d.n
          = innerProd w (cgIter d pr st0 (t + 1)).r d.n := innerProd_comm _ _ d.n
        _ = innerProd w (cgIter d pr st0 t).r d.n -
              cgAlpha d (cgIter d pr st0 t) *
                innerProd w (Lop d (cgIter d pr st0 t).p) d.n := hRright t w
        _ = _ := by
            rw [innerProd_comm w (cgIter d pr st0 t).r,
              innerProd_comm w (Lop d (cgIter d pr st0 t).p)]
    have hZform : ∀ (t : ℕ) (w : Vec),
        innerProd w (cgIter d pr st0 t).z d.n =
          Mip pr.M d.n (cgIter d pr st0 t).r w :=
      fun t w => innerProd_with_Mz w _ pr.M _ d.n (cg_z_eval d pr st0 hZ0 t)
    have hZformL : ∀ (t : ℕ) (w : Vec),
        innerProd (cgIter d pr st0 t).z w d.n =
          Mip pr.M d.n (cgIter d pr st0 t).r w := by
      intro t w
      rw [innerProd_comm]
      exact hZform t w
    have hPright : ∀ (t : ℕ) (w : Vec),
        innerProd w (cgIter d pr st0 (t + 1)).p d.n =
          ((cgIter d pr st0 (t + 1)).ipzr / (cgIter d pr st0 t).ipzr) *
              innerProd w (cgIter d pr st0 t).p d.n +
            innerProd w (cgIter d pr st0 (t + 1)).z d.n := by
      intro t w
      calc innerProd w (cgIter d pr st0 (t + 1)).p d.n
          = innerProd w (fun i =>
              ((cgIter d pr st0 (t + 1)).ipzr / (cgIter d pr st0 t).ipzr) *
                  (cgIter d pr st0 t).p i +
                (cgIter d pr st0 (t + 1)).z i) d.n :=
            innerProd_congr_right _ _ _ d.n (cg_p_succ_eval d pr st0 t)
        _ = _ := innerProd_mul_add_right _ _ _ d.n _
    have hf : ∀ j ≤ K,
        innerProd (cgIter d pr st0 (K + 1)).r (cgIter d pr st0 j).p d.n = 0 := by
      intro j hj
      rw [hRleft K (cgIter d pr st0 j).p]
      rcases Nat.lt_or_ge j K with hjK | hjK
      · rw [ihf j K hjK le_rfl,
          show innerProd (Lop d (cgIter d pr st0 K).p) (cgIter d pr st0 j).p d.n =
              innerProd (cgIter d pr st0 K).p (Lop d (cgIter d pr st0 j).p) d.n
            from Lop_symm d _ _,
          ihd j K hjK le_rfl]
        ring
      · have hjeq : j = K := le_antisymm hj hjK
        subst hjeq
        rw [ihe j le_rfl,
          innerProd_comm (Lop d (cgIter d pr st0 j).p) (cgIter d pr st0 j).p d.n,
          cgAlpha, div_mul_cancel₀ _ (ne_of_gt (hDpos j le_rfl))]
        ring
    have hc : ∀ j ≤ K,
        Mip pr.M d.n (cgIter d pr st0 j).r (cgIter d pr st0 (K + 1)).r = 0 := by
      intro j hj
      rw [← hZform j (cgIter d pr st0 (K + 1)).r]
      cases j with
      | zero =>
        show innerProd (cgIter d pr st0 (K + 1)).r st0.z d.n = 0
        rw [innerProd_congr_right _ _ st0.p d.n (fun i hi => (hP0 i hi).symm)]
        exact hf 0 (Nat.zero_le K)
      | succ j' =>
        have hzp : ∀ i < d.n, (cgIter d pr st0 (j' + 1)).z i =
            (cgIter d pr st0 (j' + 1)).p i -
              ((cgIter d pr st0 (j' + 1)).ipzr / (cgIter d pr st0 j').ipzr) *
                (cgIter d pr st0 j').p i := by
          intro i hi
          rw [cg_p_succ_eval d pr st0 j' i hi]
          ring
        calc innerProd (cgIter d pr st0 (K + 1)).r
              (cgIter d pr st0 (j' + 1)).z d.n
            = innerProd (cgIter d pr st0 (K + 1)).r (fun i =>
                (cgIter d pr st0 (j' + 1)).p i -
                  ((cgIter d pr st0 (j' + 1)).ipzr /
                      (cgIter d pr st0 j').ipzr) *
                    (cgIter d pr st0 j').p i) d.n :=
              innerProd_congr_right _ _ _ d.n hzp
          _ = innerProd (cgIter d pr st0 (K + 1)).r
                  (cgIter d pr st0 (j' + 1)).p d.n -
                ((cgIter d pr st0 (j' + 1)).ipzr /
                    (cgIter d pr st0 j').ipzr) *
                  innerProd (cgIter d pr st0 (K + 1)).r
                    (cgIter d pr st0 j').p d.n :=
              innerProd_sub_mul_right _ _ _ d.n _
          _ = 0 := by
              rw [hf (j' + 1) hj, hf j' (le_trans (Nat.le_succ j') hj)]
              ring
    have he : innerProd (cgIter d pr st0 (K + 1)).r
        (cgIter d pr st0 (K + 1)).p d.n = (cgIter d pr st0 (K + 1)).ipzr := by
      rw [hPright K, hf K le_rfl, hZform (K + 1),
        cg_ipzr_eval d pr st0 hIP0 (K + 1)]
      ring
    have hd : ∀ j ≤ K,
        innerProd (cgIter d pr st0 (K + 1)).p
          (Lop d (cgIter d pr st0 j).p) d.n = 0 := by
      intro j hj
      have hexpand : innerProd (cgIter d pr st0 (K + 1)).p
          (Lop d (cgIter d pr st0 j).p) d.n =
            ((cgIter d pr st0 (K + 1)).ipzr / (cgIter d pr st0 K).ipzr) *
                innerProd (cgIter d pr st0 K).p
                  (Lop d (cgIter d pr st0 j).p) d.n +
              innerProd (cgIter d pr st0 (K + 1)).z
                (Lop d (cgIter d pr st0 j).p) d.n := by
        calc innerProd (cgIter d pr st0 (K + 1)).p
              (Lop d (cgIter d pr st0 j).p) d.n
            = innerProd (Lop d (cgIter d pr st0 j).p)
                (cgIter d pr st0 (K + 1)).p d.n := innerProd_comm _ _ d.n
          _ = ((cgIter d pr st0 (K + 1)).ipzr / (cgIter d pr st0 K).ipzr) *
                  innerProd (Lop d (cgIter d pr st0 j).p)
                    (cgIter d pr st0 K).p d.n +
                innerProd (Lop d (cgIter d pr st0 j).p)
                  (cgIter d pr st0 (K + 1)).z d.n :=
              hPright K _
          _ = _ := by
              rw [innerProd_comm (Lop d (cgIter d pr st0 j).p)
                  (cgIter d pr st0 K).p d.n,
                innerProd_comm (Lop d (cgIter d pr st0 j).p)
                  (cgIter d pr st0 (K + 1)).z d.n]
      have hrel : cgAlpha d (cgIter d pr st0 j) *
          innerProd (cgIter d pr st0 (K + 1)).z
            (Lop d (cgIter d pr st0 j).p) d.n =
            Mip pr.M d.n (cgIter d pr st0 (K + 1)).r (cgIter d pr st0 j).r -
              Mip pr.M d.n (cgIter d pr st0 (K + 1)).r
                (cgIter d pr st0 (j + 1)).r := by
        have h1 := hRright j (cgIter d pr st0 (K + 1)).z
        rw [hZformL (K + 1) (cgIter d pr st0 (j + 1)).r,
          hZformL (K + 1) (cgIter d pr st0 j).r] at h1
        linarith [h1]
      rcases Nat.lt_or_ge j K with hjK | hjK
      · have hm1 : Mip pr.M d.n (cgIter d pr st0 (K + 1)).r
            (cgIter d pr st0 j).r = 0 := by
          rw [Mip_comm]
          exact hc j (le_of_lt hjK)
        have hm2 : Mip pr.M d.n (cgIter d pr st0 (K + 1)).r
            (cgIter d pr st0 (j + 1)).r = 0 := by
          rw [Mip_comm]
          exact hc (j + 1) hjK
        rw [hm1, hm2, sub_self] at hrel
        have hZL0 : innerProd (cgIter d pr st0 (K + 1)).z
            (Lop d (cgIter d pr st0 j).p) d.n = 0 :=
          (mul_eq_zero.mp hrel).resolve_left
            (ne_of_gt (hApos j (le_of_lt hjK)))
        rw [hexpand, hZL0, ihd j K hjK le_rfl]
        ring
      · have hjeq : j = K := le_antisymm hj hjK
        subst hjeq
        have hm1 : Mip pr.M d.n (cgIter d pr st0 (j + 1)).r
            (cgIter d pr st0 j).r = 0 := by
          rw [Mip_comm]
          exact hc j le_rfl
        have hm2 : Mip pr.M d.n (cgIter d pr st0 (j + 1)).r
            (cgIter d pr st0 (j + 1)).r = (cgIter d pr st0 (j + 1)).ipzr :=
          (cg_ipzr_eval d pr st0 hIP0 (j + 1)).symm
        rw [hm1, hm2, zero_sub] at hrel
        rw [hexpand]
        have hip_ne : (cgIter d pr st0 j).ipzr ≠ 0 :=
          ne_of_gt (hIPpos j le_rfl)
        have hD_ne : innerProd (cgIter d pr st0 j).p
            (Lop d (cgIter d pr st0 j).p) d.n ≠ 0 :=
          ne_of_gt (hDpos j le_rfl)
        rw [cgAlpha] at hrel
        have hZL : innerProd (cgIter d pr st0 (j + 1)).z
            (Lop d (cgIter d pr st0 j).p) d.n =
              -(cgIter d pr st0 (j + 1)).ipzr *
                  innerProd (cgIter d pr st0 j).p
                    (Lop d (cgIter d pr st0 j).p) d.n /
                (cgIter d pr st0 j).ipzr := by
          field_simp at hrel ⊢
          linear_combination hrel
        rw [hZL]
        field_simp
    refine ⟨?_, ?_, ?_, ?_⟩
    · intro j k hjk hk
      rcases Nat.lt_or_ge k (K + 1) with hk' | hk'
      · exact ihc j k hjk (Nat.lt_succ_iff.mp hk')
      · have hkeq : k = K + 1 := le_antisymm hk hk'
        subst hkeq
        exact hc j (Nat.lt_succ_iff.mp hjk)
    · intro j k hjk hk
      rcases Nat.lt_or_ge k (K + 1) with hk' | hk'
      · exact ihd j k hjk (Nat.lt_succ_iff.mp hk')
      · have hkeq : k = K + 1 := le_antisymm hk hk'
        subst hkeq
        exact hd j (Nat.lt_succ_iff.mp hjk)
    · intro j k hjk hk
      rcases Nat.lt_or_ge k (K + 1) with hk' | hk'
      · exact ihf j k hjk (Nat.lt_succ_iff.mp hk')
      · have hkeq : k = K + 1 := le_antisymm hk hk'
        subst hkeq
        exact hf j (Nat.lt_succ_iff.mp hjk)
    · intro k hk
      rcases Nat.lt_or_ge k (K + 1) with hk' | hk'
      · exact ihe k (Nat.lt_succ_iff.mp hk')
      · have hkeq : k = K + 1 := le_antisymm hk hk'
        subst hkeq
        exact he

/-- There is no family of `n + 1` vectors, each with a nonzero coordinate
below `n`, that is pairwise orthogonal in a positively weighted inner
product on the first `n` coordinates: they would be linearly independent
in a space of dimension `n`. -/
theorem no_orthogonal_overflow (n : ℕ) (M : Vec) (hM : ∀ i < n, 0 < M i)
    (R : ℕ → Vec)
    (horth : ∀ j k, j < k → k ≤ n → Mip M n (R j) (R k) = 0)
    (hnz : ∀ k ≤ n, ∃ i, i < n ∧ R k i ≠ 0) : False := by
  have hli : LinearIndependent ℚ
      (fun k : Fin (n + 1) => fun i : Fin n => R k i) := by
    rw [Fintype.linearIndependent_iff]
    intro g hg j
    have happ : ∀ i : Fin n, (∑ k : Fin (n + 1), g k * R k i) = 0 := by
      intro i
      have hgi := congrFun hg i
      rw [Finset.sum_apply] at hgi
      simpa using hgi
    have hsum : (∑ k : Fin (n + 1), g k * Mip M n (R k) (R j)) = 0 := by
      calc ∑ k : Fin (n + 1), g k * Mip M n (R k) (R j)
          = ∑ k : Fin (n + 1), ∑ i ∈ Finset.range n,
              g k * (M i * R k i * R j i) := by
            refine Finset.sum_congr rfl fun k _ => ?_
            rw [Mip, Finset.mul_sum]
        _ = ∑ i ∈ Finset.range n, ∑ k : Fin (n + 1),
              g k * (M i * R k i * R j i) := Finset.sum_comm
        _ = ∑ i ∈ Finset.range n,
              (M i * R j i) * (∑ k : Fin (n + 1), g k * R (k : ℕ) i) := by
            refine Finset.sum_congr rfl fun i hi => ?_
            rw [Finset.mul_sum]
            refine Finset.sum_congr rfl fun k _ => ?_
            ring
        _ = 0 := Finset.sum_eq_zero fun i hi => by
            have hin : i < n := Finset.mem_range.mp hi
            rw [happ ⟨i, hin⟩, mul_zero]
    have hterm : ∀ k : Fin (n + 1), k ≠ j →
        g k * Mip M n (R k) (R j) = 0 := by
      intro k hkj
      have hvne : (k : ℕ) ≠ (j : ℕ) := fun h => hkj (Fin.ext h)
      rcases hvne.lt_or_lt with h | h
      · rw [horth k j h (Fin.is_le j), mul_zero]
      · rw [Mip_comm, horth j k h (Fin.is_le k), mul_zero]
    have hsum2 : g j * Mip M n (R j) (R j) = 0 := by
      rwa [Finset.sum_eq_single j (fun k _ hk => hterm k hk)
        (fun h => absurd (Finset.mem_univ j) h)] at hsum
    have hpos : 0 < Mip M n (R j) (R j) :=
      Mip_pos M n (R j) hM (hnz j (Fin.is_le j))
    exact (mul_eq_zero.mp hsum2).resolve_right (ne_of_gt hpos)
  have hcard := hli.fintype_card_le_finrank
  rw [Module.finrank_fintype_fun_eq_card, Fintype.card_fin,
    Fintype.card_fin] at hcard
  omega

/-! ### Properties of the initialization state -/

theorem calcNormSq_congr (u v : Vec) (n : ℕ) (h : ∀ i < n, u i = v i) :
    calcNormSq u n = calcNormSq v n := by
  unfold calcNormSq innerProd
  exact Finset.sum_congr rfl fun i hi => by rw [h i (Finset.mem_range.mp hi)]

theorem pcgInit_z (d : Data) (pr : Priv) (s : Option Vec) (b : Vec) :
    ∀ i < d.n, (pcgInit d pr s b).z i = (pcgInit d pr s b).r i * pr.M i := by
  cases s with
  | none => exact applyPreConditioner_fst pr.M pr.z (memcpy pr.r b d.n) d.n
  | some sv =>
    exact applyPreConditioner_fst pr.M pr.z
      (scaleArray (addScaledArray (matVec d pr sv pr.r) b d.n (-1)) (-1) d.n)
      d.n

theorem pcgInit_ipzr (d : Data) (pr : Priv) (s : Option Vec) (b : Vec) :
    (pcgInit d pr s b).ipzr =
      Mip pr.M d.n (pcgInit d pr s b).r (pcgInit d pr s b).r := by
  cases s with
  | none => exact applyPreConditioner_snd pr.M pr.z (memcpy pr.r b d.n) d.n
  | some sv =>
    exact applyPreConditioner_snd pr.M pr.z
      (scaleArray (addScaledArray (matVec d pr sv pr.r) b d.n (-1)) (-1) d.n)
      d.n

theorem pcgInit_p (d : Data) (pr : Priv) (s : Option Vec) (b : Vec) :
    ∀ i < d.n, (pcgInit d pr s b).p i = (pcgInit d pr s b).z i := by
  cases s with
  | none =>
    intro i hi
    show (if i < d.n then _ else _) = _
    rw [if_pos hi]
    rfl
  | some sv =>
    intro i hi
    show (if i < d.n then _ else _) = _
    rw [if_pos hi]
    rfl

theorem pcgInit_residual (d : Data) (pr0 : Priv) (hv : AValid d)
    (s : Option Vec) (b : Vec) :
    ∀ i < d.n,
      (pcgInit d (getPreconditioner d (transpose d pr0)) s b).r i =
        b i -
          Lop d (pcgInit d (getPreconditioner d (transpose d pr0)) s b).x i := by
  cases s with
  | none =>
    intro i hi
    have hx : ∀ j < d.n, (memset0 b d.n) j = (fun _ : ℕ => (0 : ℚ)) j := by
      intro j hj
      show (if j < d.n then 0 else b j) = 0
      rw [if_pos hj]
    have hLzero : Lop d (fun _ : ℕ => (0 : ℚ)) i = 0 := by
      unfold Lop
      simp
    have hLx : Lop d (memset0 b d.n) i = 0 := by
      rw [Lop_congr d (memset0 b d.n) (fun _ => 0) hx i hi, hLzero]
    show memcpy (getPreconditioner d (transpose d pr0)).r b d.n i =
      b i - Lop d (memset0 b d.n) i
    rw [hLx, sub_zero]
    show (if i < d.n then b i else _) = b i
    rw [if_pos hi]
  | some sv =>
    intro i hi
    have hxs : ∀ j < d.n, (memcpy b sv d.n) j = sv j := by
      intro j hj
      show (if j < d.n then sv j else b j) = sv j
      rw [if_pos hj]
    have hLx : Lop d (memcpy b sv d.n) i = Lop d sv i :=
      Lop_congr d _ sv hxs i hi
    show scaleArray
        (addScaledArray
          (matVec d (getPreconditioner d (transpose d pr0)) sv
            (getPreconditioner d (transpose d pr0)).r) b d.n (-1)) (-1) d.n i =
      b i - Lop d (memcpy b sv d.n) i
    rw [hLx]
    show (if i < d.n then
        (-1 : ℚ) * (if i < d.n then
          matVec d (getPreconditioner d (transpose d pr0)) sv
              (getPreconditioner d (transpose d pr0)).r i + (-1) * b i
        else _)
      else _) = _
    rw [if_pos hi, if_pos hi,
      matVec_getPre_eval d pr0 hv sv (getPreconditioner d (transpose d pr0)).r
        i hi]
    ring

/-- C1: whenever `ρ > 0` (so the implicit operator `ρI + AᵀA` is symmetric
positive definite), `pcg` on the `n`-dimensional system with iteration
budget `n` and a positive tolerance converges to the requested residual
tolerance within at most `n` iterations — the returned iterate's residual
satisfies `‖b − L x‖² < tol²` — and the iteration count it returns never
exceeds the budget (for the budget `n` and for any other budget alike). -/
theorem pcg_converges (d : Data) (pr0 : Priv) (hv : AValid d)
    (hRho : 0 < d.RHO_X) (s : Option Vec) (b : Vec) (tol : ℚ)
    (htol : 0 < tol) :
    (pcg d (getPreconditioner d (transpose d pr0)) s b d.n tol).1 ≤ d.n ∧
    (∀ its,
      (pcg d (getPreconditioner d (transpose d pr0)) s b its tol).1 ≤ its) ∧
    calcNormSq (fun i =>
        b i -
          Lop d
            (pcg d (getPreconditioner d (transpose d pr0)) s b d.n tol).2 i)
      d.n < tol ^ 2 := by
  have htolsq : (0 : ℚ) < tol ^ 2 := pow_pos htol 2
  refine ⟨pcg_count_le d _ s b d.n tol,
    fun its => pcg_count_le d _ s b its tol, ?_⟩
  have hL : ∀ x y : Vec, ∀ i < d.n,
      matVec d (getPreconditioner d (transpose d pr0)) x y i = Lop d x i :=
    fun x y => matVec_getPre_eval d pr0 hv x y
  have hM := getPreconditioner_M_pos d (transpose d pr0) hRho
  have hZ0 := pcgInit_z d (getPreconditioner d (transpose d pr0)) s b
  have hIP0 := pcgInit_ipzr d (getPreconditioner d (transpose d pr0)) s b
  have hP0 := pcgInit_p d (getPreconditioner d (transpose d pr0)) s b
  have hres := cg_residual_track d pr0 hv
    (pcgInit d (getPreconditioner d (transpose d pr0)) s b) b
    (pcgInit_residual d pr0 hv s b)
  by_cases hexists : ∃ k, k < d.n ∧
      calcNormSq
        (cgIter d (getPreconditioner d (transpose d pr0))
          (pcgInit d (getPreconditioner d (transpose d pr0)) s b) (k + 1)).r
        d.n < tol ^ 2
  · obtain ⟨hKn, hKexit⟩ := Nat.find_spec hexists
    have hKfail : ∀ k < Nat.find hexists,
        tol ^ 2 ≤ calcNormSq
          (cgIter d (getPreconditioner d (transpose d pr0))
            (pcgInit d (getPreconditioner d (transpose d pr0)) s b)
            (k + 1)).r d.n := by
      intro k hk
      have hm := Nat.find_min hexists hk
      push_neg at hm
      exact hm (lt_trans hk hKn)
    have hrun := pcgLoop_run_exit d (getPreconditioner d (transpose d pr0))
      tol d.n (Nat.find hexists)
      (pcgInit d (getPreconditioner d (transpose d pr0)) s b)
      hKn hKfail hKexit
    rw [pcg_eq_pcgLoop, hrun]
    exact (calcNormSq_congr _ _ d.n
      (fun i hi => (hres (Nat.find hexists + 1) i hi).symm)).trans_lt hKexit
  · push_neg at hexists
    rcases Nat.eq_zero_or_pos d.n with hn0 | hnpos
    · have h0 : calcNormSq (fun i =>
          b i -
            Lop d
              (pcg d (getPreconditioner d (transpose d pr0)) s b d.n tol).2 i)
          d.n = 0 := by
        rw [hn0]
        simp [calcNormSq, innerProd]
      rw [h0]
      exact htolsq
    · exfalso
      have hne : ∀ k ≤ d.n, ∃ i, i < d.n ∧
          (cgIter d (getPreconditioner d (transpose d pr0))
            (pcgInit d (getPreconditioner d (transpose d pr0)) s b) k).r i
            ≠ 0 := by
        intro k hk
        cases k with
        | zero =>
          by_contra hall
          push_neg at hall
          have hall0 : ∀ i < d.n,
              (pcgInit d (getPreconditioner d (transpose d pr0)) s b).r i =
                0 := fun i hi => hall i hi
          have hipz :
              (pcgInit d (getPreconditioner d (transpose d pr0)) s b).ipzr =
                0 := by
            rw [hIP0]
            exact Finset.sum_eq_zero fun i hi => by
              rw [hall0 i (Finset.mem_range.mp hi)]
              ring
          have halpha : cgAlpha d
              (pcgInit d (getPreconditioner d (transpose d pr0)) s b) = 0 := by
            rw [cgAlpha, hipz, zero_div]
          have hR1 : ∀ i < d.n,
              (cgIter d (getPreconditioner d (transpose d pr0))
                (pcgInit d (getPreconditioner d (transpose d pr0)) s b)
                (0 + 1)).r i = 0 := by
            intro i hi
            rw [show (cgIter d (getPreconditioner d (transpose d pr0))
                (pcgInit d (getPreconditioner d (transpose d pr0)) s b)
                (0 + 1)).r =
              (pcgStep d (getPreconditioner d (transpose d pr0))
                (pcgInit d (getPreconditioner d (transpose d pr0)) s b)).r
              from rfl,
              pcgStep_r_evalA d (getPreconditioner d (transpose d pr0)) hL
                (pcgInit d (getPreconditioner d (transpose d pr0)) s b) i hi,
              hall0 i hi, halpha]
            ring
          have h1 := hexists 0 hnpos
          rw [calcNormSq_eq_zero
            (cgIter d (getPreconditioner d (transpose d pr0))
              (pcgInit d (getPreconditioner d (transpose d pr0)) s b)
              (0 + 1)).r d.n hR1] at h1
          linarith
        | succ k' =>
          by_contra hall
          push_neg at hall
          have h1 := hexists k' (by omega)
          rw [calcNormSq_eq_zero
            (cgIter d (getPreconditioner d (transpose d pr0))
              (pcgInit d (getPreconditioner d (transpose d pr0)) s b)
              (k' + 1)).r d.n hall] at h1
          linarith
      obtain ⟨horth, _, _, _⟩ := cg_orth d
        (getPreconditioner d (transpose d pr0)) hL hM hRho
        (pcgInit d (getPreconditioner d (transpose d pr0)) s b)
        hZ0 hIP0 hP0 d.n (fun j hj => hne j (le_of_lt hj))
      exact no_orthogonal_overflow d.n
        (getPreconditioner d (transpose d pr0)).M hM
        (fun k => (cgIter d (getPreconditioner d (transpose d pr0))
          (pcgInit d (getPreconditioner d (transpose d pr0)) s b) k).r)
        horth hne

/-- C1 witness: the convergence statement applied to the 2×2 identity
scenario with `ρ = 1`, no warm start, right-hand side `[2,2]`, budget
`n = 2` and tolerance `1`. -/
theorem pcg_converges_witness :
    AValid id2Data ∧ (0 : ℚ) < id2Data.RHO_X ∧ (0 : ℚ) < 1 ∧
    ((pcg id2Data (getPreconditioner id2Data (transpose id2Data junkPriv))
        none (fun _ => 2) id2Data.n 1).1 ≤ id2Data.n ∧
      (∀ its,
        (pcg id2Data (getPreconditioner id2Data (transpose id2Data junkPriv))
          none (fun _ => 2) its 1).1 ≤ its) ∧
      calcNormSq (fun i =>
          (fun _ : ℕ => (2 : ℚ)) i -
            Lop id2Data
              (pcg id2Data
                (getPreconditioner id2Data (transpose id2Data junkPriv))
                none (fun _ => 2) id2Data.n 1).2 i)
        id2Data.n < 1 ^ 2) :=
  ⟨id2Valid, by norm_num [id2Data], by norm_num,
    pcg_converges id2Data junkPriv id2Valid (by norm_num [id2Data]) none
      (fun _ => 2) 1 (by norm_num)⟩

/-- Warm started at a vector `s` with `(ρ·I + AᵀA) s = b` exactly, the
initialization of `pcg` (lines 196–203) produces an exactly zero residual,
hence `ipzr = 0` and a zero direction `p`, so the step size computed by the
first loop iteration (line 208, `alpha = ipzr / innerProd(p, Ap, n)`) is a
division of an exactly zero dividend by an exactly zero divisor. -/
theorem pcgInit_exact_solution_zero (d : Data) (pr0 : Priv) (hv : AValid d)
    (s b : Vec)
    (hsol : ∀ i < d.n,
      d.RHO_X * s i +
        ∑ r ∈ Finset.range d.m,
          Aentry d r i * (∑ c ∈ Finset.range d.n, Aentry d r c * s c) = b i) :
    (∀ i < d.n, (pcgInit d (transpose d pr0) (some s) b).r i = 0) ∧
    (pcgInit d (transpose d pr0) (some s) b).ipzr = 0 ∧
    innerProd (pcgInit d (transpose d pr0) (some s) b).p
      (matVec d (transpose d pr0)
        (pcgInit d (transpose d pr0) (some s) b).p
        (transpose d pr0).Ap) d.n = 0 := by
  have hmv : ∀ i < d.n,
      matVec d (transpose d pr0) s (transpose d pr0).r i = b i := by
    intro i hi
    rw [matVec_eval d pr0 hv s (transpose d pr0).r i hi]
    exact hsol i hi
  have hr0 : ∀ i < d.n,
      (pcgInit d (transpose d pr0) (some s) b).r i = 0 := by
    intro i hi
    show (if i < d.n then
        (-1 : ℚ) * (if i < d.n then
          matVec d (transpose d pr0) s (transpose d pr0).r i + (-1) * b i
        else matVec d (transpose d pr0) s (transpose d pr0).r i)
      else _) = 0
    rw [if_pos hi, if_pos hi, hmv i hi]
    ring
  have hip : (pcgInit d (transpose d pr0) (some s) b).ipzr = 0 :=
    applyPreConditioner_ipzr_zero (transpose d pr0).M (transpose d pr0).z
      (scaleArray
        (addScaledArray (matVec d (transpose d pr0) s (transpose d pr0).r)
          b d.n (-1)) (-1) d.n) d.n
      (fun i hi => hr0 i hi)
  have hp0 : ∀ i < d.n,
      (pcgInit d (transpose d pr0) (some s) b).p i = 0 := by
    intro i hi
    rw [pcgInit_p d (transpose d pr0) (some s) b i hi,
      pcgInit_z d (transpose d pr0) (some s) b i hi, hr0 i hi, zero_mul]
  refine ⟨hr0, hip, ?_⟩
  rw [innerProd_comm]
  exact innerProd_zero_right _ _ d.n hp0

/-- C7: the claimed warm-start behavior fails on the code.  On the 2×2
identity scenario with `ρ = 1`, right-hand side `b = [2,2]` and warm start
at the exact solution `s = [1,1]` (all quantities exactly representable as
doubles, and every operation of the initialization exact), the residual
entering the loop is exactly zero, `ipzr` is exactly zero, and the
step-size denominator `innerProd(p, Ap, n)` is exactly zero as well, as
this theorem computes.  Line 208 therefore evaluates `0.0 / 0.0`, which is
NaN in C double arithmetic; the NaN propagates into the iterate and the
residual through lines 209–210, every later test `calcNorm(r) < tol` is
false on NaN, and `pcg` runs to budget exhaustion, returning `max_its`
with a NaN-filled solution buffer rather than converging in 0–1 iterations
with the buffer still holding `s`. -/
theorem pcg_warm_start_divides_zero_by_zero :
    (pcgInit id2Data (transpose id2Data junkPriv)
      (some fun _ => 1) (fun _ => 2)).r 0 = 0 ∧
    (pcgInit id2Data (transpose id2Data junkPriv)
      (some fun _ => 1) (fun _ => 2)).r 1 = 0 ∧
    (pcgInit id2Data (transpose id2Data junkPriv)
      (some fun _ => 1) (fun _ => 2)).ipzr = 0 ∧
    innerProd
      (pcgInit id2Data (transpose id2Data junkPriv)
        (some fun _ => 1) (fun _ => 2)).p
      (matVec id2Data (transpose id2Data junkPriv)
        (pcgInit id2Data (transpose id2Data junkPriv)
          (some fun _ => 1) (fun _ => 2)).p
        (transpose id2Data junkPriv).Ap) id2Data.n = 0 := by
  have hA : ∀ r c : ℕ, c < 2 →
      Aentry id2Data r c = if c = r then (1 : ℚ) else 0 := by
    intro r c hc
    show (∑ q ∈ Finset.Ico (min c 2) (min (c + 1) 2),
        if q = r then (1 : ℚ) else 0) = _
    rw [min_eq_left (le_of_lt hc), min_eq_left hc,
      Finset.sum_Ico_eq_sum_range, show c + 1 - c = 1 by omega,
      Finset.sum_range_one]
    norm_num
  have hsol : ∀ i < id2Data.n,
      id2Data.RHO_X * (fun _ : ℕ => (1 : ℚ)) i +
        ∑ r ∈ Finset.range id2Data.m,
          Aentry id2Data r i *
            (∑ c ∈ Finset.range id2Data.n,
              Aentry id2Data r c * (fun _ : ℕ => (1 : ℚ)) c) =
        (fun _ : ℕ => (2 : ℚ)) i := by
    intro i hi
    have hn : id2Data.n = 2 := rfl
    have hm : id2Data.m = 2 := rfl
    have hrho : id2Data.RHO_X = (1 : ℚ) := rfl
    have hi2 : i < 2 := hi
    interval_cases i <;>
      norm_num [hm, hn, hrho, Finset.sum_range_succ,
        hA 0 0 (by norm_num), hA 1 0 (by norm_num),
        hA 0 1 (by norm_num), hA 1 1 (by norm_num)]
  obtain ⟨h1, h2, h3⟩ := pcgInit_exact_solution_zero id2Data junkPriv
    id2Valid (fun _ => 1) (fun _ => 2) hsol
  exact ⟨h1 0 (by decide), h1 1 (by decide), h2, h3⟩

end MyScs
